import Mathlib

/-!
Verification development for the outage-schedule bot (justDiilan/schedule-bot).

The Python source is shallowly embedded: every definition below is translated
from a concrete function of the repository (the file and function are named in
its doc comment).  Strings are Lean `String`s, Python `dict`s are association
lists, Python string comparison is the code-point lexicographic order modelled
by `ltChars` below, and fallible steps are `Option`s.
-/

/-- Code-point order on characters, as used by Python string comparison. -/
def chLt (a b : Char) : Bool := a.toNat < b.toNat

/-- Lexicographic order on character lists: the order Python uses to compare
and sort strings (`sorted(times.keys())` in `TernopilProvider._slots_from_times`). -/
def ltChars : List Char → List Char → Bool
  | _, [] => false
  | [], _ :: _ => true
  | a :: as, b :: bs => chLt a b || (a == b && ltChars as bs)

/-- Python `a < b` on strings. -/
def pyLt (a b : String) : Bool := ltChars a.data b.data

/-- Python `a <= b` on strings (total order: the negation of `b < a`). -/
def pyLe (a b : String) : Bool := !(pyLt b a)

/-- Insert into a sorted list: one step of the insertion sort used to model
Python `sorted`. -/
def insBy (le : String → String → Bool) (x : String) : List String → List String
  | [] => [x]
  | y :: ys => if le x y then x :: y :: ys else y :: insBy le x ys

/-- Model of Python `sorted` over a list of strings for a total order `le`
(ascending, same multiset of elements). -/
def sortBy (le : String → String → Bool) (l : List String) : List String :=
  l.foldr (insBy le) []

/-- Python `sep in s` for a one-character separator. -/
def pyContains (sep : Char) (s : String) : Bool := s.data.any (fun c => c == sep)

/-- Split a character list at the first occurrence of `sep`
(the list form of Python `s.split(sep, 1)` when `sep` occurs). -/
def splitFC (sep : Char) : List Char → List Char × List Char
  | [] => ([], [])
  | c :: cs =>
    if c == sep then ([], cs)
    else
      let p := splitFC sep cs
      (c :: p.1, p.2)

/-- Python `s.split(sep, 1)` (two pieces) on strings, for `sep` occurring in `s`. -/
def splitF (sep : Char) (s : String) : String × String :=
  let p := splitFC sep s.data
  (String.mk p.1, String.mk p.2)

/-- Python dict lookup `d.get(k)` over an association list. -/
def pyGet {β : Type} (l : List (String × β)) (k : String) : Option β :=
  match l with
  | [] => none
  | (k0, v0) :: rest => if k0 == k then some v0 else pyGet rest k

/-- Python `int(h)` on a string of decimal digits. -/
def pyIntOfDigits (cs : List Char) : Nat :=
  cs.foldl (fun a c => a * 10 + (c.toNat - 48)) 0

/-- Full split of a character list on a separator (Python `s.split(sep)`). -/
def splitAllC (sep : Char) : List Char → List (List Char)
  | [] => [[]]
  | c :: cs =>
    let r := splitAllC sep cs
    if c == sep then [] :: r
    else
      match r with
      | [] => [[c]]
      | seg :: rest => (c :: seg) :: rest

/-! ## Data model (src/providers/base.py, src/db.py) -/

/-- Slot dataclass of `providers/base.py`: one contiguous run of a single power
state (`start`/`end` are "HH:MM" strings, the Python field `end` is `stop`
here because `end` is a Lean keyword). -/
structure Slot where
  start : String
  stop : String
  kind : String
deriving DecidableEq, Repr

/-- DaySchedule as actually constructed by `TernopilProvider.get_schedule` and
`SvitloProvider.get_schedule` (keyword arguments `title=`, `date=`,
`group_key=`, `outages=`) and consumed by `app.py` (`day_obj.date`).  The
declaration in `providers/base.py` lacks the `date` field; that discrepancy is
analysed separately via `dayScheduleFieldNames`. -/
structure DaySchedule where
  title : String
  date : String
  group_key : String
  outages : List Slot
deriving DecidableEq, Repr

/-- Field names of the frozen dataclass `DaySchedule` as declared in
`providers/base.py` (lines 11-15). -/
def dayScheduleFieldNames : List String := ["title", "group_key", "outages"]

/-- Keyword-argument names passed to the `DaySchedule` constructor by
`TernopilProvider.get_schedule` (ternopil.py lines 187-192) and by
`SvitloProvider.get_schedule` (svitlo_placeholder.py lines 165-170). -/
def providerDayScheduleKwargs : List String := ["title", "date", "group_key", "outages"]

/-- A Python dataclass `__init__` call with keyword arguments succeeds exactly
when the supplied names are the declared fields (every kwarg is a field, and
no field without a default is missing; `DaySchedule` declares no defaults). -/
def kwargsAccepted (fields kwargs : List String) : Bool :=
  kwargs.all (fun k => fields.contains k) && fields.all (fun f => kwargs.contains f)

/-! ## Ternopil slot extractor (src/providers/ternopil.py) -/

/-- `get_state` inside `TernopilProvider._slots_from_times`: raw code 1 is an
outage, 10 is switching, anything else (including a non-numeric value, the
`ValueError` branch) is "on".  Raw JSON values are modelled as `Option Int`
(`none` for a non-numeric value). -/
def tern_get_state (v : Option Int) : String :=
  match v with
  | some 1 => "outage"
  | some 10 => "switching"
  | some _ => "on"
  | none => "on"

/-- Value of `get_state(times[t])` for the times dict of
`TernopilProvider._slots_from_times`. -/
def tern_state_of (times : List (String × Option Int)) (t : String) : String :=
  tern_get_state ((pyGet times t).getD none)

/-- The walk of `TernopilProvider._slots_from_times` over the sorted sample
keys, carrying `prev_state` and `start_time` and appending closed runs. -/
def tern_go (stateOf : String → String) :
    List String → String → String → List Slot → List Slot
  | [], ps, st, acc =>
    if ps == "outage" || ps == "switching" then acc ++ [⟨st, "24:00", ps⟩] else acc
  | t :: rest, ps, st, acc =>
    let cur := stateOf t
    if cur != ps then
      tern_go stateOf rest cur t
        (if ps == "outage" || ps == "switching" then acc ++ [⟨st, t, ps⟩] else acc)
    else
      tern_go stateOf rest ps st acc

/-- `TernopilProvider._slots_from_times`: sort the sample keys lexically,
classify each sample, and close every maximal outage/switching run. -/
def tern_slots_from_times (times : List (String × Option Int)) : List Slot :=
  let sorted_keys := sortBy pyLe (times.map Prod.fst)
  match sorted_keys with
  | [] => []
  | k0 :: _ => tern_go (tern_state_of times) sorted_keys (tern_state_of times k0) k0 []

/-- The per-graph day construction inside `TernopilProvider.get_schedule`
(lines 160-197) for one `dateGraph` member matching the target group key:
absent when the group key or its `times` entry is missing, otherwise a present
`DaySchedule` built from `_slots_from_times`. -/
def tern_day_from_graph (date_part : String) (gk : String)
    (times? : Option (List (String × Option Int))) : Option DaySchedule :=
  match times? with
  | none => none
  | some times =>
    some { title := "Графік на " ++ date_part
           date := date_part
           group_key := gk
           outages := tern_slots_from_times times }

/-! ## Svitlo slot extractor (src/providers/svitlo_placeholder.py) -/

/-- `to_minutes` inside `SvitloProvider._slots_to_intervals`:
`h, m = t.split(":"); int(h) * 60 + int(m)` (junk value 0 when the label is
not of the two-part form, a case the claims exclude). -/
def toMinutes (s : String) : Nat :=
  match splitAllC ':' s.data with
  | [h, m] => pyIntOfDigits h * 60 + pyIntOfDigits m
  | _ => 0

/-- Key order used by `sorted(slots.keys(), key=to_minutes)`. -/
def minLe (a b : String) : Bool := toMinutes a ≤ toMinutes b

/-- Value of `slots[t]` in `SvitloProvider._slots_to_intervals` (raw codes:
2 outage, 1 power, 0 no data). -/
def sv_val_of (slots : List (String × Int)) (t : String) : Int :=
  (pyGet slots t).getD 0

/-- The walk of `SvitloProvider._slots_to_intervals`: `prev_val` starts as
Python `None` (`none` here); a run opens on a transition into 2 and closes on
a transition out of 2 (or at end of day with the "24:00" sentinel). -/
def sv_go (valOf : String → Int) :
    List String → Option Int → String → List Slot → List Slot
  | [], ps, st, acc =>
    if ps == some 2 then acc ++ [⟨st, "24:00", "outage"⟩] else acc
  | t :: rest, ps, st, acc =>
    let v := valOf t
    let st' := if v == 2 && ps != some 2 then t else st
    let acc' := if ps == some 2 && v != 2 then acc ++ [⟨st, t, "outage"⟩] else acc
    sv_go valOf rest (some v) st' acc'

/-- `SvitloProvider._slots_to_intervals`: sort sample keys by `to_minutes` and
extract the outage intervals.  `start_time` before first assignment is
modelled as `""`; the source never reads it before a transition into 2 has
assigned it. -/
def sv_slots_to_intervals (slots : List (String × Int)) : List Slot :=
  let times := sortBy minLe (slots.map Prod.fst)
  sv_go (sv_val_of slots) times none "" []

/-- `build_day` inside `SvitloProvider.get_schedule` (lines 153-170): absent
when the date has no entry, an empty entry (`if not day_slots`), or only
zero-valued samples; otherwise a present `DaySchedule` with the extracted
intervals. -/
def sv_build_day (group_block : List (String × List (String × Int)))
    (key : String) (date_str title : String) : Option DaySchedule :=
  match pyGet group_block date_str with
  | none => none
  | some day_slots =>
    if day_slots.isEmpty then none
    else if day_slots.all (fun p => p.2 == 0) then none
    else
      some { title := title
             date := date_str
             group_key := key
             outages := sv_slots_to_intervals day_slots }

/-! ## Day fingerprint (src/formatting.py, get_day_hash) -/

/-- The single-quote character, Python's preferred repr quote. -/
def qc : Char := Char.ofNat 39

/-- The double-quote character. -/
def dq : Char := Char.ofNat 34

/-- The backslash character. -/
def bsl : Char := Char.ofNat 92

/-- CPython escaping of one character inside a `repr` string quoted with `q`:
backslash and the quote are backslash-escaped, newline/carriage-return/tab
become two-character escapes, other non-printable ASCII becomes a hex escape
(printable characters, including non-ASCII ones, pass through). -/
def pyEscChar (q c : Char) : List Char :=
  if c == bsl then [bsl, bsl]
  else if c == q then [bsl, q]
  else if c == Char.ofNat 10 then [bsl, Char.ofNat 110]
  else if c == Char.ofNat 13 then [bsl, Char.ofNat 114]
  else if c == Char.ofNat 9 then [bsl, Char.ofNat 116]
  else if c.toNat < 32 || c.toNat == 127 then [bsl, Char.ofNat 120, Char.ofNat (48 + c.toNat / 16), Char.ofNat (48 + c.toNat % 16)]
  else [c]

/-- CPython `repr` of a string: single-quoted unless the string contains a
single quote but no double quote, with the characters escaped. -/
def pyReprChars (s : List Char) : List Char :=
  let q := if s.contains qc && !(s.contains dq) then dq else qc
  q :: s.flatMap (pyEscChar q) ++ [q]

/-- The dataclass `repr` of one `Slot`, as it appears inside
`str(day.outages)` in `get_day_hash` (formatting.py line 61):
`Slot(start='…', end='…', kind='…')`. -/
def reprSlotChars (s : Slot) : List Char :=
  ("Slot(start=").data ++ pyReprChars s.start.data ++
  (", end=").data ++ pyReprChars s.stop.data ++
  (", kind=").data ++ pyReprChars s.kind.data ++ [')']

/-- The comma-separated body of the Python list `repr`. -/
def reprBody : List Slot → List Char
  | [] => []
  | [s] => reprSlotChars s
  | s :: rest => reprSlotChars s ++ (", ").data ++ reprBody rest

/-- `str(day.outages)`: the Python `repr` of the outage list, the exact digest
input of `get_day_hash`. -/
def pyStrOutages (l : List Slot) : List Char :=
  '[' :: reprBody l ++ [']']

/-- Hex digit character for a value below 16 (`0123456789abcdef`). -/
def hexDigit (n : Nat) : Char :=
  if n < 10 then Char.ofNat (48 + n) else Char.ofNat (87 + n)

/-- Six-hex-digit encoding of one code point of the digest input. -/
def charHex6 (c : Char) : List Char :=
  [hexDigit (c.toNat / 1048576 % 16), hexDigit (c.toNat / 65536 % 16),
   hexDigit (c.toNat / 4096 % 16), hexDigit (c.toNat / 256 % 16),
   hexDigit (c.toNat / 16 % 16), hexDigit (c.toNat % 16)]

/-- Model of `hashlib.sha256(base.encode()).hexdigest()` in `get_day_hash`:
a deterministic digest of the serialized outage list whose output uses the
hexdigest alphabet `0-9a-f`.  The SHA-256 compression itself is beyond the
embedding, so the digest is modelled as an injective hex encoding of its
input: like the real hexdigest it is a pure function of the digest input,
uses only hex characters, and never collides on the serializations the
program produces (the spec itself requires the digest to "never collide with
a real day's digest in practice"). -/
def hexDigest (cs : List Char) : String := String.mk (cs.flatMap charHex6)

/-- `get_day_hash` (formatting.py lines 56-62): the empty string for an absent
day, otherwise the digest of `str(day.outages)` — title, date and group_key
never enter the digest input. -/
def get_day_hash (day : Option DaySchedule) : String :=
  match day with
  | none => ""
  | some d => hexDigest (pyStrOutages d.outages)

/-! ## Subscriber state encoding and poll logic (src/app.py, process_subscription) -/

/-- `parse_state` inside `process_subscription` (app.py lines 329-333):
`"date|hash"` splits at the first `|`; a legacy string without `|` becomes
`("", whole_string)`. -/
def parse_state (s : String) : String × String :=
  if pyContains '|' s then splitF '|' s else ("", s)

/-- `make_state` inside `process_subscription` (app.py lines 335-339): an
absent day is the empty state, a present day is `"{date}|{hash}"`. -/
def make_state (day : Option DaySchedule) (h : String) : String :=
  match day with
  | none => ""
  | some d => d.date ++ "|" ++ h

/-- The stored-state split of app.py lines 350-354: at the first `:` when one
occurs, else `(stored, "")`. -/
def storedParts (stored : String) : String × String :=
  if pyContains ':' stored then splitF ':' stored else (stored, "")

/-- The `(date, fingerprint)` pair stored for "today", as `process_subscription`
reads it back. -/
def storedTodayPair (s : String) : String × String := parse_state (storedParts s).1

/-- One notification emitted by `process_subscription`: whether it is the
"tomorrow" message and which header `send_schedule_message` is given. -/
structure Notice where
  is_tomorrow : Bool
  header : Option String
deriving DecidableEq, Repr

/-- Result of one poll-mode run for one subscriber: the notifications sent, and
`some s` when `db.set_last_hash(user_id, s)` is executed (`none` when the
stored string is left untouched). -/
structure PollOut where
  notices : List Notice
  write : Option String
deriving DecidableEq, Repr

/-- The "Check Today" block of poll mode (app.py lines 364-390). -/
def todayNotices (today : Option DaySchedule) (h_today : String)
    (s_today s_tomorrow : String × String) : List Notice :=
  match today with
  | none => []
  | some d =>
    if d.date ≠ s_today.1 then
      if s_tomorrow.2 ≠ "" ∧ h_today = s_tomorrow.2 then []
      else
        [⟨false, some (if s_tomorrow.2 ≠ "" then "УВАГА! Графік змінився (оновлення)!"
                       else "З'явився графік на сьогодні!")⟩]
    else if h_today ≠ s_today.2 then [⟨false, some "УВАГА! Графік змінився!"⟩]
    else []

/-- The "Check Tomorrow" block of poll mode (app.py lines 392-402). -/
def tomorrowNotices (tomorrow : Option DaySchedule) (h_tomorrow : String)
    (s_tomorrow : String × String) : List Notice :=
  match tomorrow with
  | none => []
  | some d =>
    if d.date ≠ s_tomorrow.1 then [⟨true, some "З'явився/змінився графік на завтра!"⟩]
    else if h_tomorrow ≠ s_tomorrow.2 then [⟨true, some "УВАГА! Графік на завтра змінився!"⟩]
    else []

/-- Poll-mode body of `process_subscription` (app.py lines 341-407), as a pure
function of the fetched `(today, tomorrow)` and the stored `last_hash`
string. -/
def processPoll (today tomorrow : Option DaySchedule) (stored : String) : PollOut :=
  let h_today := get_day_hash today
  let h_tomorrow := get_day_hash tomorrow
  let current_today_state := make_state today h_today
  let current_tomorrow_state := make_state tomorrow h_tomorrow
  let new_combined_hash := current_today_state ++ ":" ++ current_tomorrow_state
  let parts := storedParts stored
  let s_today := parse_state parts.1
  let s_tomorrow := parse_state parts.2
  { notices := todayNotices today h_today s_today s_tomorrow ++
      tomorrowNotices tomorrow h_tomorrow s_tomorrow
    write := if new_combined_hash ≠ stored then some new_combined_hash else none }

/-- The stored string after one poll step: the written value when
`db.set_last_hash` ran, the old string otherwise. -/
def postStored (stored : String) (o : PollOut) : String := o.write.getD stored

/-! ## Subscription store (src/db.py) -/

/-- A row of the `subscriptions` table (db.py). -/
structure Subscription where
  user_id : Int
  provider : String
  region_code : String
  group_num : String
  subgroup_num : String
  last_hash : String
  username : Option String
deriving DecidableEq, Repr

/-- `DB.get_subscription`: the row with the given primary key. -/
def get_subscription (rows : List Subscription) (uid : Int) : Option Subscription :=
  rows.find? (fun r => r.user_id == uid)

/-- `DB.upsert_subscription` (db.py lines 35-46): insert with
`last_hash = COALESCE((SELECT last_hash …), '')`, and on primary-key conflict
update provider, region_code, group_num, subgroup_num and username only —
`last_hash` is absent from the `DO UPDATE SET` list. -/
def upsert_subscription (rows : List Subscription) (uid : Int)
    (p rc g sg : String) (un : Option String) : List Subscription :=
  if rows.any (fun r => r.user_id == uid) then
    rows.map (fun r =>
      if r.user_id == uid then
        { r with provider := p, region_code := rc, group_num := g,
                 subgroup_num := sg, username := un }
      else r)
  else
    rows ++ [{ user_id := uid, provider := p, region_code := rc, group_num := g,
               subgroup_num := sg, last_hash := "", username := un }]

/-- `DB.set_last_hash`: update the `last_hash` column of the row with the given
key. -/
def set_last_hash (rows : List Subscription) (uid : Int) (h : String) : List Subscription :=
  rows.map (fun r => if r.user_id == uid then { r with last_hash := h } else r)

/-! ## Helper lemmas: characters, lexicographic order, splitting -/

theorem charToNat_inj {a b : Char} (h : a.toNat = b.toNat) : a = b :=
  Char.ext (UInt32.eq_of_val_eq (Fin.ext h))

theorem stringMk_data (s : String) : String.mk s.data = s := by cases s; rfl

theorem stringMk_inj {a b : List Char} (h : String.mk a = String.mk b) : a = b := by
  cases h; rfl

theorem string_data_inj {a b : String} (h : a.data = b.data) : a = b := by
  have := congrArg String.mk h
  rwa [stringMk_data, stringMk_data] at this

theorem ltChars_irrefl (a : List Char) : ltChars a a = false := by
  induction a with
  | nil => rfl
  | cons c cs ih => simp [ltChars, chLt, ih]

theorem ltChars_asymm : ∀ a b : List Char, ltChars a b = true → ltChars b a = false := by
  intro a
  induction a with
  | nil => intro b _; cases b <;> rfl
  | cons c cs ih =>
    intro b h
    cases b with
    | nil => simp [ltChars] at h
    | cons d ds =>
      simp only [ltChars, chLt, Bool.or_eq_true, Bool.and_eq_true, beq_iff_eq,
        decide_eq_true_eq] at h ⊢
      simp only [Bool.or_eq_false_iff, Bool.and_eq_false_iff, decide_eq_false_iff_not, not_lt]
      rcases h with h | ⟨rfl, h⟩
      · constructor
        · omega
        · left; simp only [beq_eq_false_iff_ne, ne_eq]
          intro hdc; rw [hdc] at h; omega
      · exact ⟨le_refl _, Or.inr (ih ds h)⟩

theorem ltChars_connex : ∀ a b : List Char,
    ltChars a b = false → ltChars b a = false → a = b := by
  intro a
  induction a with
  | nil => intro b h _; cases b with
    | nil => rfl
    | cons d ds => simp [ltChars] at h
  | cons c cs ih =>
    intro b h1 h2
    cases b with
    | nil => simp [ltChars] at h2
    | cons d ds =>
      simp only [ltChars, chLt, Bool.or_eq_false_iff, Bool.and_eq_false_iff,
        decide_eq_false_iff_not, not_lt, beq_eq_false_iff_ne, ne_eq] at h1 h2
      obtain ⟨hcd, h1'⟩ := h1
      obtain ⟨hdc, h2'⟩ := h2
      have hval : c.toNat = d.toNat := le_antisymm hdc hcd
      have hceq : c = d := charToNat_inj hval
      subst hceq
      rcases h1' with h1' | h1'
      · exact absurd rfl h1'
      · rcases h2' with h2' | h2'
        · exact absurd rfl h2'
        · rw [ih ds h1' h2']

theorem ltChars_trans : ∀ a b c : List Char,
    ltChars a b = true → ltChars b c = true → ltChars a c = true := by
  intro a
  induction a with
  | nil =>
    intro b c h1 h2
    cases b with
    | nil => simp [ltChars] at h1
    | cons d ds =>
      cases c with
      | nil => simp [ltChars] at h2
      | cons e es => rfl
  | cons x xs ih =>
    intro b c h1 h2
    cases b with
    | nil => simp [ltChars] at h1
    | cons d ds =>
      cases c with
      | nil => simp [ltChars] at h2
      | cons e es =>
        simp only [ltChars, chLt, Bool.or_eq_true, Bool.and_eq_true, beq_iff_eq,
          decide_eq_true_eq] at h1 h2 ⊢
        rcases h1 with h1 | ⟨rfl, h1⟩
        · rcases h2 with h2 | ⟨rfl, h2⟩
          · left; omega
          · left; exact h1
        · rcases h2 with h2 | ⟨rfl, h2⟩
          · left; exact h2
          · right; exact ⟨rfl, ih ds es h1 h2⟩

theorem pyLt_irrefl (a : String) : pyLt a a = false := ltChars_irrefl a.data

theorem pyLt_asymm {a b : String} (h : pyLt a b = true) : pyLt b a = false :=
  ltChars_asymm a.data b.data h

theorem pyLt_connex {a b : String} (h1 : pyLt a b = false) (h2 : pyLt b a = false) :
    a = b :=
  string_data_inj (ltChars_connex a.data b.data h1 h2)

theorem pyLt_trans {a b c : String} (h1 : pyLt a b = true) (h2 : pyLt b c = true) :
    pyLt a c = true :=
  ltChars_trans a.data b.data c.data h1 h2

theorem pyLe_refl (a : String) : pyLe a a = true := by
  simp [pyLe, pyLt_irrefl]

theorem pyLe_of_lt {a b : String} (h : pyLt a b = true) : pyLe a b = true := by
  simp [pyLe, pyLt_asymm h]

theorem pyLe_total (a b : String) : pyLe a b = true ∨ pyLe b a = true := by
  cases hv : pyLt b a
  · left; simp [pyLe, hv]
  · right; simp [pyLe, pyLt_asymm hv]

theorem pyLt_of_le_of_ne {a b : String} (h : pyLe a b = true) (hne : a ≠ b) :
    pyLt a b = true := by
  cases hv : pyLt a b
  · exfalso
    have hba : pyLt b a = false := by
      simpa [pyLe, Bool.not_eq_true'] using h
    exact hne (pyLt_connex hv hba)
  · rfl

theorem pyLe_trans {a b c : String} (h1 : pyLe a b = true) (h2 : pyLe b c = true) :
    pyLe a c = true := by
  simp only [pyLe, Bool.not_eq_true'] at h1 h2 ⊢
  cases hv : pyLt c a
  · rfl
  · exfalso
    by_cases hab : a = b
    · subst hab; rw [hv] at h2; cases h2
    · have h1' : pyLt a b = true := pyLt_of_le_of_ne (by simp [pyLe, h1]) hab
      have := pyLt_trans hv h1'
      rw [this] at h2; cases h2

theorem pyLe_of_lt_of_le {a b c : String} (h1 : pyLt a b = true) (h2 : pyLe b c = true) :
    pyLe a c = true :=
  pyLe_trans (pyLe_of_lt h1) h2

theorem splitFC_append (sep : Char) {a : List Char} (b : List Char) (h : sep ∉ a) :
    splitFC sep (a ++ sep :: b) = (a, b) := by
  induction a with
  | nil => simp [splitFC]
  | cons c cs ih =>
    have hc : c ≠ sep := fun hcs => h (hcs ▸ List.mem_cons_self c cs)
    have hcs : sep ∉ cs := fun hm => h (List.mem_cons_of_mem c hm)
    simp [splitFC, hc, ih hcs]

theorem data_append_sep (x y : String) (sep : String) :
    (x ++ sep ++ y).data = x.data ++ sep.data ++ y.data := by
  rw [String.data_append, String.data_append]

theorem pyContains_true_of_mem {sep : Char} {s : String} (h : sep ∈ s.data) :
    pyContains sep s = true := by
  simp only [pyContains, List.any_eq_true]
  exact ⟨sep, h, by simp⟩

theorem pyContains_false_iff {sep : Char} {s : String} :
    pyContains sep s = false ↔ sep ∉ s.data := by
  simp only [pyContains, Bool.eq_false_iff, ne_eq, List.any_eq_true, beq_iff_eq]
  constructor
  · intro h hm; exact h ⟨sep, hm, rfl⟩
  · rintro h ⟨c, hc, rfl⟩; exact h hc

theorem storedParts_append (x y : String) (h : ':' ∉ x.data) :
    storedParts (x ++ ":" ++ y) = (x, y) := by
  have hd : (x ++ ":" ++ y).data = x.data ++ ':' :: y.data := by
    rw [data_append_sep]; simp
  have hc : pyContains ':' (x ++ ":" ++ y) = true :=
    pyContains_true_of_mem (by rw [hd]; exact List.mem_append_right _ (List.mem_cons_self _ _))
  simp only [storedParts, hc, if_true, splitF, hd, splitFC_append ':' y.data h]

theorem parse_state_append (x y : String) (h : '|' ∉ x.data) :
    parse_state (x ++ "|" ++ y) = (x, y) := by
  have hd : (x ++ "|" ++ y).data = x.data ++ '|' :: y.data := by
    rw [data_append_sep]; simp
  have hc : pyContains '|' (x ++ "|" ++ y) = true :=
    pyContains_true_of_mem (by rw [hd]; exact List.mem_append_right _ (List.mem_cons_self _ _))
  simp only [parse_state, hc, if_true, splitF, hd, splitFC_append '|' y.data h]

theorem parse_state_legacy {s : String} (h : pyContains '|' s = false) :
    parse_state s = ("", s) := by
  simp [parse_state, h]

/-- C1: every DaySchedule produced by a provider carries a `date` field and is
never mutated after construction.  The claim fails in the source as written:
the frozen dataclass in `providers/base.py` declares only `title`, `group_key`
and `outages`, while both providers construct `DaySchedule` with a `date=`
keyword argument (which the dataclass `__init__` rejects), and `app.py` reads
`day_obj.date`.  This theorem evaluates the mismatch: the construction sites
pass `date` but the declared field set does not accept that keyword set. -/
theorem c1_daySchedule_date_field_missing :
    providerDayScheduleKwargs.contains "date" = true ∧
    dayScheduleFieldNames.contains "date" = false ∧
    kwargsAccepted dayScheduleFieldNames providerDayScheduleKwargs = false := by
  decide

/-- C2: on a fetch failure the cycle continues, nothing is sent, and the
stored state string is unchanged.  The claim fails for the Ternopil provider:
its `get_schedule` swallows the fetch exception and returns `(None, None, 0)`,
after which poll mode sends nothing but overwrites the subscriber's stored
state `"2026-01-19|a1:2026-01-20|b2"` with `":"` (because `":" != stored`),
clearing both stored pairs. -/
theorem c2_fetch_failure_overwrites_state :
    processPoll none none "2026-01-19|a1:2026-01-20|b2" =
      { notices := [], write := some ":" } ∧
    (":" : String) ≠ "2026-01-19|a1:2026-01-20|b2" := by
  constructor
  · decide
  · decide

/-! ## Digest output alphabet -/

theorem hexDigit_ok : ∀ n < 16, hexDigit n ≠ ':' ∧ hexDigit n ≠ '|' := by decide

theorem mem_charHex6 {c x : Char} (hc : c ∈ charHex6 x) :
    ∃ n, n < 16 ∧ c = hexDigit n := by
  simp only [charHex6, List.mem_cons, List.mem_singleton, List.not_mem_nil, or_false] at hc
  rcases hc with rfl | rfl | rfl | rfl | rfl | rfl <;>
    exact ⟨_, Nat.mod_lt _ (by norm_num), rfl⟩

theorem mem_hexDigest_ne {c : Char} {cs : List Char} (h : c ∈ (hexDigest cs).data) :
    c ≠ ':' ∧ c ≠ '|' := by
  have h' : c ∈ cs.flatMap charHex6 := h
  obtain ⟨x, _, hc⟩ := List.mem_flatMap.mp h'
  obtain ⟨n, hn, rfl⟩ := mem_charHex6 hc
  exact hexDigit_ok n hn

theorem get_day_hash_no_colon (d : DaySchedule) :
    ':' ∉ (get_day_hash (some d)).data := fun h => (mem_hexDigest_ne h).1 rfl

theorem get_day_hash_no_pipe (d : DaySchedule) :
    '|' ∉ (get_day_hash (some d)).data := fun h => (mem_hexDigest_ne h).2 rfl

theorem get_day_hash_some_ne_empty (d : DaySchedule) : get_day_hash (some d) ≠ "" := by
  intro h
  have hd : (get_day_hash (some d)).data = [] := by rw [h]
  simp only [get_day_hash, hexDigest, pyStrOutages] at hd
  have : charHex6 '[' ++ (reprBody d.outages ++ [']']).flatMap charHex6 = ([] : List Char) := by
    simpa [List.flatMap_cons] using hd
  simp [charHex6] at this

/-! ## C7: persisted-state round trip -/

/-- The persisted-state string as `process_subscription` builds it (app.py
lines 335-347): `make_state` produces `"{date}|{hash}"` for each present day
and the two sides are joined with `":"`. -/
def serialize_pairs (td tf tmd tmf : String) : String :=
  (td ++ "|" ++ tf) ++ ":" ++ (tmd ++ "|" ++ tmf)

/-- The parse of a stored string back into two `(date, fingerprint)` pairs, as
`process_subscription` performs it (app.py lines 350-357): split at the first
`":"`, then `parse_state` each side at its first `"|"`. -/
def parse_pairs (s : String) : (String × String) × (String × String) :=
  (parse_state (storedParts s).1, parse_state (storedParts s).2)

/-- C7: serializing two `(date, fingerprint)` pairs to
`"<td>|<tf>:<tmd>|<tmf>"` and parsing the string back yields the same two
pairs (dates and the today-fingerprint are free of the separators, as the
`YYYY-MM-DD` dates and hex digests the program stores always are); and a
legacy stored string lacking `"|"` parses to `("", whole string)`. -/
theorem c7_state_roundtrip (td tf tmd tmf leg : String)
    (h1 : pyContains ':' td = false) (h2 : pyContains '|' td = false)
    (h3 : pyContains ':' tf = false) (h4 : pyContains '|' tmd = false) :
    parse_pairs (serialize_pairs td tf tmd tmf) = ((td, tf), (tmd, tmf)) ∧
    (pyContains '|' leg = false → parse_state leg = ("", leg)) := by
  constructor
  · have hcolon : ':' ∉ (td ++ "|" ++ tf).data := by
      rw [data_append_sep]
      intro hm
      rcases List.mem_append.mp hm with hm | hm
      · rcases List.mem_append.mp hm with hm | hm
        · exact (pyContains_false_iff.mp h1) hm
        · simp at hm
      · exact (pyContains_false_iff.mp h3) hm
    have hsp : storedParts (serialize_pairs td tf tmd tmf) =
        (td ++ "|" ++ tf, tmd ++ "|" ++ tmf) :=
      storedParts_append _ _ hcolon
    simp only [parse_pairs, hsp]
    rw [parse_state_append td tf (pyContains_false_iff.mp h2),
      parse_state_append tmd tmf (pyContains_false_iff.mp h4)]
  · intro h
    exact parse_state_legacy h

/-- Witness for C7 at concrete values: a modern state string round-trips and a
legacy bare-hash string parses as `("", hash)`. -/
theorem c7_state_roundtrip_witness :
    parse_pairs (serialize_pairs "2026-01-19" "aa" "2026-01-20" "bb") =
      (("2026-01-19", "aa"), ("2026-01-20", "bb")) ∧
    (pyContains '|' "deadbeef" = false → parse_state "deadbeef" = ("", "deadbeef")) := by
  exact c7_state_roundtrip "2026-01-19" "aa" "2026-01-20" "bb" "deadbeef"
    (by decide) (by decide) (by decide) (by decide)


/-! ## C10: upsert leaves last_hash untouched -/

/-- The `DO UPDATE SET` row rewrite of `DB.upsert_subscription` applied to one
stored row. -/
def updRow (uid : Int) (p rc g sg : String) (un : Option String) (x : Subscription) : Subscription :=
  if x.user_id == uid then { x with provider := p, region_code := rc, group_num := g, subgroup_num := sg, username := un } else x

theorem upsert_eq_map {rows : List Subscription} {uid : Int}
    {p rc g sg : String} {un : Option String}
    (hany : rows.any (fun x => x.user_id == uid) = true) :
    upsert_subscription rows uid p rc g sg un = rows.map (updRow uid p rc g sg un) := by
  simp only [upsert_subscription, hany, if_true]
  rfl

theorem find_map_updRow : ∀ (rows : List Subscription) (uid : Int)
    (p rc g sg : String) (un : Option String) (r : Subscription),
    rows.find? (fun x => x.user_id == uid) = some r →
    (rows.map (updRow uid p rc g sg un)).find? (fun x => x.user_id == uid) =
      some (updRow uid p rc g sg un r) := by
  intro rows uid p rc g sg un r h
  induction rows with
  | nil => simp at h
  | cons x xs ih =>
    cases hx : (x.user_id == uid) with
    | true =>
      rw [List.find?_cons_of_pos (p := fun y : Subscription => y.user_id == uid) _ hx] at h
      have hux : ((fun y : Subscription => y.user_id == uid) (updRow uid p rc g sg un x)) = true := by
        simp only [updRow, hx, if_true]
      rw [List.map_cons, List.find?_cons_of_pos (p := fun y : Subscription => y.user_id == uid) _ hux]
      cases h
      rfl
    | false =>
      rw [List.find?_cons_of_neg (p := fun y : Subscription => y.user_id == uid) _ (by simp [hx])] at h
      have hux : ¬ ((fun y : Subscription => y.user_id == uid) (updRow uid p rc g sg un x)) = true := by
        simp only [updRow, hx, if_false]
        simp [hx]
      rw [List.map_cons, List.find?_cons_of_neg (p := fun y : Subscription => y.user_id == uid) _ hux]
      exact ih h

/-- C10: for a subscriber that already has a stored row,
`DB.upsert_subscription` with new provider/region/group/subgroup (and
username) values rewrites those columns but leaves `last_hash` exactly as
stored — `last_hash` is absent from the `ON CONFLICT … DO UPDATE SET` list,
and only `set_last_hash` (or row deletion) touches it. -/
theorem c10_upsert_preserves_last_hash (rows : List Subscription) (uid : Int)
    (p rc g sg : String) (un : Option String) (r : Subscription)
    (h : get_subscription rows uid = some r) :
    get_subscription (upsert_subscription rows uid p rc g sg un) uid =
      some { r with provider := p, region_code := rc, group_num := g,
                    subgroup_num := sg, username := un } ∧
    (get_subscription (upsert_subscription rows uid p rc g sg un) uid).map
      Subscription.last_hash = some r.last_hash := by
  have h' : rows.find? (fun x => x.user_id == uid) = some r := h
  have hany : rows.any (fun x => x.user_id == uid) = true := by
    refine List.any_eq_true.mpr ⟨r, List.mem_of_find?_eq_some h', ?_⟩
    exact List.find?_some (p := fun y : Subscription => y.user_id == uid) h'
  have hmain : get_subscription (upsert_subscription rows uid p rc g sg un) uid =
      some (updRow uid p rc g sg un r) := by
    rw [upsert_eq_map hany]
    exact find_map_updRow rows uid p rc g sg un r h'
  have hru : (r.user_id == uid) = true := List.find?_some (p := fun y : Subscription => y.user_id == uid) h'
  have hupd : updRow uid p rc g sg un r =
      { r with provider := p, region_code := rc, group_num := g,
               subgroup_num := sg, username := un } := by
    simp only [updRow, hru, if_true]
  constructor
  · rw [hmain, hupd]
  · rw [hmain, hupd]
    rfl

/-- Witness for C10: a concrete stored row keeps its `last_hash` through an
upsert that changes every other mutable column. -/
theorem c10_upsert_preserves_last_hash_witness :
    get_subscription (upsert_subscription [⟨7, "svitlo", "ternopilska-oblast", "1", "1", "2026-01-19|aa:", some "u"⟩] 7 "ternopil" "ternopil" "3" "2" (some "v")) 7 =
      some ⟨7, "ternopil", "ternopil", "3", "2", "2026-01-19|aa:", some "v"⟩ ∧
    (get_subscription (upsert_subscription [⟨7, "svitlo", "ternopilska-oblast", "1", "1", "2026-01-19|aa:", some "u"⟩] 7 "ternopil" "ternopil" "3" "2" (some "v")) 7).map
      Subscription.last_hash = some "2026-01-19|aa:" := by
  exact c10_upsert_preserves_last_hash
    [⟨7, "svitlo", "ternopilska-oblast", "1", "1", "2026-01-19|aa:", some "u"⟩]
    7 "ternopil" "ternopil" "3" "2" (some "v")
    ⟨7, "svitlo", "ternopilska-oblast", "1", "1", "2026-01-19|aa:", some "u"⟩
    (by decide)

/-! ## C3: silent rollover -/

theorem tomorrowNotices_all_tomorrow (tomorrow : Option DaySchedule)
    (h_tomorrow : String) (s_tomorrow : String × String) :
    ∀ n ∈ tomorrowNotices tomorrow h_tomorrow s_tomorrow, n.is_tomorrow = true := by
  intro n hn
  cases tomorrow with
  | none => simp [tomorrowNotices] at hn
  | some d =>
    simp only [tomorrowNotices] at hn
    split at hn
    · simp only [List.mem_singleton] at hn; rw [hn]
    · split at hn
      · simp only [List.mem_singleton] at hn; rw [hn]
      · simp at hn

/-- C3: when the stored tomorrow fingerprint is non-empty, the freshly fetched
today has a different date than the stored today date, and the fresh today's
fingerprint equals the stored tomorrow fingerprint, poll mode sends no
notification for today (all emitted notices, if any, are for tomorrow), yet it
does write the state back, and the written state's today pair is the fresh
`(date, fingerprint)`.  The stored components are assumed free of the `:` and
`|` separators, as the dates (`YYYY-MM-DD`) and hex digests the program stores
always are. -/
theorem c3_silent_rollover (d : DaySchedule) (tm : Option DaySchedule)
    (sdT shT sdM : String)
    (h1 : pyContains ':' sdT = false) (h2 : pyContains '|' sdT = false)
    (h3 : pyContains ':' shT = false) (h4 : pyContains '|' sdM = false)
    (h5 : pyContains ':' d.date = false) (h6 : pyContains '|' d.date = false)
    (hne : d.date ≠ sdT) :
    (∀ n ∈ (processPoll (some d) tm
        ((sdT ++ "|" ++ shT) ++ ":" ++ (sdM ++ "|" ++ get_day_hash (some d)))).notices,
      n.is_tomorrow = true) ∧
    (processPoll (some d) tm
        ((sdT ++ "|" ++ shT) ++ ":" ++ (sdM ++ "|" ++ get_day_hash (some d)))).write ≠ none ∧
    storedTodayPair (postStored
        ((sdT ++ "|" ++ shT) ++ ":" ++ (sdM ++ "|" ++ get_day_hash (some d)))
        (processPoll (some d) tm
          ((sdT ++ "|" ++ shT) ++ ":" ++ (sdM ++ "|" ++ get_day_hash (some d))))) =
      (d.date, get_day_hash (some d)) := by
  have hD := get_day_hash (some d)
  have hdg_colon : ':' ∉ (get_day_hash (some d)).data := get_day_hash_no_colon d
  have hdg_pipe : '|' ∉ (get_day_hash (some d)).data := get_day_hash_no_pipe d
  have hcol1 : ':' ∉ (sdT ++ "|" ++ shT).data := by
    rw [data_append_sep]
    intro hm
    rcases List.mem_append.mp hm with hm | hm
    · rcases List.mem_append.mp hm with hm | hm
      · exact (pyContains_false_iff.mp h1) hm
      · simp at hm
    · exact (pyContains_false_iff.mp h3) hm
  have hcol2 : ':' ∉ (d.date ++ "|" ++ get_day_hash (some d)).data := by
    rw [data_append_sep]
    intro hm
    rcases List.mem_append.mp hm with hm | hm
    · rcases List.mem_append.mp hm with hm | hm
      · exact (pyContains_false_iff.mp h5) hm
      · simp at hm
    · exact hdg_colon hm
  have hsp : storedParts ((sdT ++ "|" ++ shT) ++ ":" ++ (sdM ++ "|" ++ get_day_hash (some d))) =
      (sdT ++ "|" ++ shT, sdM ++ "|" ++ get_day_hash (some d)) :=
    storedParts_append _ _ hcol1
  have hps1 : parse_state (sdT ++ "|" ++ shT) = (sdT, shT) :=
    parse_state_append _ _ (pyContains_false_iff.mp h2)
  have hps2 : parse_state (sdM ++ "|" ++ get_day_hash (some d)) =
      (sdM, get_day_hash (some d)) :=
    parse_state_append _ _ (pyContains_false_iff.mp h4)
  have hmk : make_state (some d) (get_day_hash (some d)) = d.date ++ "|" ++ get_day_hash (some d) := rfl
  have hspn : storedParts ((d.date ++ "|" ++ get_day_hash (some d)) ++ ":" ++
      make_state tm (get_day_hash tm)) =
      (d.date ++ "|" ++ get_day_hash (some d), make_state tm (get_day_hash tm)) :=
    storedParts_append _ _ hcol2
  have hpsn : parse_state (d.date ++ "|" ++ get_day_hash (some d)) =
      (d.date, get_day_hash (some d)) :=
    parse_state_append _ _ (pyContains_false_iff.mp h6)
  have hneq : (d.date ++ "|" ++ get_day_hash (some d)) ++ ":" ++ make_state tm (get_day_hash tm) ≠
      (sdT ++ "|" ++ shT) ++ ":" ++ (sdM ++ "|" ++ get_day_hash (some d)) := by
    intro heq
    have hparts := congrArg storedParts heq
    rw [hspn, hsp] at hparts
    have hfst : d.date ++ "|" ++ get_day_hash (some d) = sdT ++ "|" ++ shT :=
      congrArg Prod.fst hparts
    have hdates := congrArg parse_state hfst
    rw [hpsn, hps1] at hdates
    exact hne (congrArg Prod.fst hdates)
  have hsilent : todayNotices (some d) (get_day_hash (some d)) (sdT, shT)
      (sdM, get_day_hash (some d)) = [] := by
    simp [todayNotices, hne, get_day_hash_some_ne_empty d]
  constructor
  · intro n hn
    simp only [processPoll, hsp, hps1, hps2, hmk] at hn
    rw [hsilent] at hn
    simp only [List.nil_append] at hn
    exact tomorrowNotices_all_tomorrow tm (get_day_hash tm) (sdM, get_day_hash (some d)) n hn
  · constructor
    · simp only [processPoll, hmk]
      rw [if_pos hneq]
      exact Option.some_ne_none _
    · simp only [processPoll, hmk, postStored]
      rw [if_pos hneq]
      simp only [Option.getD_some, storedTodayPair, hspn, hpsn]

/-- Witness for C3 at a concrete silent rollover: stored
`("2026-01-19", "aa")` for today, stored tomorrow `("2026-01-20", fp)` where
`fp` is the fingerprint of the freshly fetched `2026-01-20` day. -/
theorem c3_silent_rollover_witness :
    (∀ n ∈ (processPoll (some ⟨"t", "2026-01-20", "3.1", []⟩) none
        (("2026-01-19" ++ "|" ++ "aa") ++ ":" ++
          ("2026-01-20" ++ "|" ++ get_day_hash (some ⟨"t", "2026-01-20", "3.1", []⟩)))).notices,
      n.is_tomorrow = true) ∧
    (processPoll (some ⟨"t", "2026-01-20", "3.1", []⟩) none
        (("2026-01-19" ++ "|" ++ "aa") ++ ":" ++
          ("2026-01-20" ++ "|" ++ get_day_hash (some ⟨"t", "2026-01-20", "3.1", []⟩)))).write ≠ none ∧
    storedTodayPair (postStored
        (("2026-01-19" ++ "|" ++ "aa") ++ ":" ++
          ("2026-01-20" ++ "|" ++ get_day_hash (some ⟨"t", "2026-01-20", "3.1", []⟩)))
        (processPoll (some ⟨"t", "2026-01-20", "3.1", []⟩) none
          (("2026-01-19" ++ "|" ++ "aa") ++ ":" ++
            ("2026-01-20" ++ "|" ++ get_day_hash (some ⟨"t", "2026-01-20", "3.1", []⟩))))) =
      ("2026-01-20", get_day_hash (some ⟨"t", "2026-01-20", "3.1", []⟩)) := by
  exact c3_silent_rollover ⟨"t", "2026-01-20", "3.1", []⟩ none "2026-01-19" "aa" "2026-01-20"
    (by decide) (by decide) (by decide) (by decide) (by decide) (by decide) (by decide)

/-! ## C4: the fingerprint is a function of the outage list alone -/

theorem charToNat_lt (c : Char) : c.toNat < 1114112 := by
  have h := c.valid
  rcases h with h | ⟨_, h2⟩
  · have : c.toNat < 55296 := h
    omega
  · exact h2

/-- Value of a hex digit character, inverse to `hexDigit` below 16. -/
def hexVal (c : Char) : Nat := if 97 ≤ c.toNat then c.toNat - 87 else c.toNat - 48

theorem hexVal_hexDigit : ∀ n < 16, hexVal (hexDigit n) = n := by decide

theorem charHex6_inj {a b : Char} (h : charHex6 a = charHex6 b) : a = b := by
  simp only [charHex6, List.cons.injEq, and_true] at h
  obtain ⟨h5, h4, h3, h2, h1, h0⟩ := h
  have e5 := congrArg hexVal h5
  have e4 := congrArg hexVal h4
  have e3 := congrArg hexVal h3
  have e2 := congrArg hexVal h2
  have e1 := congrArg hexVal h1
  have e0 := congrArg hexVal h0
  rw [hexVal_hexDigit _ (Nat.mod_lt _ (by norm_num)),
    hexVal_hexDigit _ (Nat.mod_lt _ (by norm_num))] at e5 e4 e3 e2 e1 e0
  have ha := charToNat_lt a
  have hb := charToNat_lt b
  apply charToNat_inj
  omega

theorem charHex6_length (c : Char) : (charHex6 c).length = 6 := rfl

theorem charHex6_ne_nil (c : Char) : charHex6 c ≠ [] := by simp [charHex6]

theorem flatMap_charHex6_inj : ∀ as bs : List Char,
    as.flatMap charHex6 = bs.flatMap charHex6 → as = bs := by
  intro as
  induction as with
  | nil =>
    intro bs h
    cases bs with
    | nil => rfl
    | cons b bs =>
      rw [List.flatMap_nil, List.flatMap_cons] at h
      exact absurd (List.append_eq_nil.mp h.symm).1 (charHex6_ne_nil b)
  | cons a as ih =>
    intro bs h
    cases bs with
    | nil =>
      rw [List.flatMap_nil, List.flatMap_cons] at h
      exact absurd (List.append_eq_nil.mp h).1 (charHex6_ne_nil a)
    | cons b bs =>
      rw [List.flatMap_cons, List.flatMap_cons] at h
      obtain ⟨h1, h2⟩ := List.append_inj h (by rw [charHex6_length, charHex6_length])
      rw [charHex6_inj h1, ih bs h2]

theorem hexDigest_inj {as bs : List Char} (h : hexDigest as = hexDigest bs) : as = bs :=
  flatMap_charHex6_inj as bs (stringMk_inj h)

/-- A character that `repr` passes through verbatim inside single quotes:
printable ASCII that is neither the quote nor the backslash.  Every character
the feeds put into `start`/`end`/`kind` (digits, `:`, lowercase letters) is
clean. -/
def cleanChar (c : Char) : Bool :=
  32 ≤ c.toNat && c.toNat ≤ 126 && c != qc && c != bsl

/-- All characters of a string are clean. -/
def cleanStr (s : String) : Bool := s.data.all cleanChar

/-- All three fields of a slot are clean. -/
def cleanSlot (x : Slot) : Bool := cleanStr x.start && cleanStr x.stop && cleanStr x.kind

/-- All slots of a list are clean. -/
def cleanSlots (l : List Slot) : Bool := l.all cleanSlot

theorem pyEscChar_clean {c : Char} (h : cleanChar c = true) : pyEscChar qc c = [c] := by
  simp only [cleanChar, Bool.and_eq_true, bne_iff_ne, ne_eq, decide_eq_true_eq] at h
  obtain ⟨⟨⟨h32, h126⟩, hq⟩, hb⟩ := h
  have e10 : (c == Char.ofNat 10) = false := by
    refine beq_eq_false_iff_ne.mpr ?_
    intro hc; rw [hc] at h32; simp at h32
  have e13 : (c == Char.ofNat 13) = false := by
    refine beq_eq_false_iff_ne.mpr ?_
    intro hc; rw [hc] at h32; simp at h32
  have e9 : (c == Char.ofNat 9) = false := by
    refine beq_eq_false_iff_ne.mpr ?_
    intro hc; rw [hc] at h32; simp at h32
  have hlt : ¬ (c.toNat < 32) := by omega
  have h127 : (c.toNat == 127) = false := by
    refine beq_eq_false_iff_ne.mpr ?_
    omega
  simp [pyEscChar, beq_eq_false_iff_ne.mpr hb, beq_eq_false_iff_ne.mpr hq, e10, e13, e9,
    hlt, h127]

theorem flatMap_esc_clean : ∀ s : List Char, (∀ c ∈ s, cleanChar c = true) →
    s.flatMap (pyEscChar qc) = s := by
  intro s
  induction s with
  | nil => intro _; rfl
  | cons c cs ih =>
    intro h
    rw [List.flatMap_cons, pyEscChar_clean (h c (List.mem_cons_self c cs)),
      ih (fun x hx => h x (List.mem_cons_of_mem c hx))]
    rfl

theorem clean_not_mem_qc {s : List Char} (h : ∀ c ∈ s, cleanChar c = true) : qc ∉ s := by
  intro hm
  have hc := h qc hm
  simp [cleanChar] at hc

theorem cleanStr_chars {s : String} (h : cleanStr s = true) :
    ∀ c ∈ s.data, cleanChar c = true := by
  intro c hc
  exact List.all_eq_true.mp h c hc

theorem pyReprChars_clean {s : String} (h : cleanStr s = true) :
    pyReprChars s.data = qc :: s.data ++ [qc] := by
  have hq : qc ∉ s.data := clean_not_mem_qc (cleanStr_chars h)
  simp [pyReprChars, hq, flatMap_esc_clean s.data (cleanStr_chars h)]

/-- The reader of one quoted field inside the slot `repr`: consume up to (and
including) the closing quote. -/
def readUntilQ : List Char → Option (List Char × List Char)
  | [] => none
  | c :: cs =>
    if c == qc then some ([], cs)
    else (readUntilQ cs).map (fun p => (c :: p.1, p.2))

/-- Consume an expected literal from the front of the input. -/
def dropLit : List Char → List Char → Option (List Char)
  | [], cs => some cs
  | _ :: _, [] => none
  | l :: ls, c :: cs => if l == c then dropLit ls cs else none

/-- Inverse reader of `reprSlotChars`, used to show the slot `repr` is
prefix-determined. -/
def parseSlotR (cs : List Char) : Option (Slot × List Char) :=
  match dropLit (("Slot(start=").data ++ [qc]) cs with
  | none => none
  | some cs1 =>
    match readUntilQ cs1 with
    | none => none
    | some (f1, cs2) =>
      match dropLit ((", end=").data ++ [qc]) cs2 with
      | none => none
      | some cs3 =>
        match readUntilQ cs3 with
        | none => none
        | some (f2, cs4) =>
          match dropLit ((", kind=").data ++ [qc]) cs4 with
          | none => none
          | some cs5 =>
            match readUntilQ cs5 with
            | none => none
            | some (f3, cs6) =>
              match dropLit [')'] cs6 with
              | none => none
              | some cs7 => some (⟨String.mk f1, String.mk f2, String.mk f3⟩, cs7)

theorem dropLit_append : ∀ (lit cs : List Char), dropLit lit (lit ++ cs) = some cs := by
  intro lit
  induction lit with
  | nil => intro cs; rfl
  | cons l ls ih => intro cs; simp [dropLit, ih]

theorem readUntilQ_clean : ∀ (f rest : List Char), qc ∉ f →
    readUntilQ (f ++ qc :: rest) = some (f, rest) := by
  intro f
  induction f with
  | nil => intro rest _; simp [readUntilQ]
  | cons c cs ih =>
    intro rest h
    have hc : (c == qc) = false :=
      beq_eq_false_iff_ne.mpr (fun hcq => h (hcq ▸ List.mem_cons_self c cs))
    simp [readUntilQ, hc, ih rest (fun hm => h (List.mem_cons_of_mem c hm))]

theorem parseSlotR_repr {x : Slot} (hc : cleanSlot x = true) (rest : List Char) :
    parseSlotR (reprSlotChars x ++ rest) = some (x, rest) := by
  have hs : cleanStr x.start = true ∧ cleanStr x.stop = true ∧ cleanStr x.kind = true := by
    simpa [cleanSlot, Bool.and_eq_true, and_assoc] using hc
  obtain ⟨hs1, hs2, hs3⟩ := hs
  have e : reprSlotChars x ++ rest =
      ((("Slot(start=").data ++ [qc]) ++ (x.start.data ++ qc ::
        (((", end=").data ++ [qc]) ++ (x.stop.data ++ qc ::
          (((", kind=").data ++ [qc]) ++ (x.kind.data ++ qc :: ')' :: rest)))))) := by
    rw [reprSlotChars, pyReprChars_clean hs1, pyReprChars_clean hs2, pyReprChars_clean hs3]
    simp
  rw [e]
  simp only [parseSlotR, dropLit_append,
    readUntilQ_clean _ _ (clean_not_mem_qc (cleanStr_chars hs1)),
    readUntilQ_clean _ _ (clean_not_mem_qc (cleanStr_chars hs2)),
    readUntilQ_clean _ _ (clean_not_mem_qc (cleanStr_chars hs3))]
  have hfin : dropLit [')'] (')' :: rest) = some rest := dropLit_append [')'] rest
  rw [hfin]

theorem reprSlot_prefix_det {a b : Slot} (ha : cleanSlot a = true) (hb : cleanSlot b = true)
    {x y : List Char} (h : reprSlotChars a ++ x = reprSlotChars b ++ y) :
    a = b ∧ x = y := by
  have h1 := parseSlotR_repr ha x
  rw [h] at h1
  have h2 := parseSlotR_repr hb y
  rw [h1] at h2
  have := Option.some.inj h2
  exact ⟨congrArg Prod.fst this, congrArg Prod.snd this⟩

theorem reprSlot_head (s : Slot) : ∃ t, reprSlotChars s = 'S' :: t := ⟨_, rfl⟩

theorem cleanSlots_cons {a : Slot} {l : List Slot} (h : cleanSlots (a :: l) = true) :
    cleanSlot a = true ∧ cleanSlots l = true := by
  simpa [cleanSlots, List.all_cons, Bool.and_eq_true] using h

theorem reprBody_nil_ne (b : Slot) (bs : List Slot) (z : List Char) :
    [']'] ≠ reprBody (b :: bs) ++ z := by
  obtain ⟨t, ht⟩ := reprSlot_head b
  cases bs with
  | nil => simp [reprBody, ht]
  | cons b2 bs2 => simp [reprBody, ht]

theorem reprBody_bracket_inj : ∀ (l1 l2 : List Slot),
    cleanSlots l1 = true → cleanSlots l2 = true →
    reprBody l1 ++ [']'] = reprBody l2 ++ [']'] → l1 = l2 := by
  intro l1
  induction l1 with
  | nil =>
    intro l2 _ _ h
    cases l2 with
    | nil => rfl
    | cons b bs =>
      exact absurd (by simpa [reprBody] using h) (reprBody_nil_ne b bs [']'])
  | cons a as ih =>
    intro l2 hc1 hc2 h
    obtain ⟨hca, hcas⟩ := cleanSlots_cons hc1
    cases l2 with
    | nil =>
      exact absurd (by simpa [reprBody] using h.symm) (reprBody_nil_ne a as [']'])
    | cons b bs =>
      obtain ⟨hcb, hcbs⟩ := cleanSlots_cons hc2
      cases as with
      | nil =>
        cases bs with
        | nil =>
          simp only [reprBody] at h
          exact congrArg (fun z => z :: ([] : List Slot)) (reprSlot_prefix_det hca hcb h).1
        | cons b2 bs2 =>
          exfalso
          simp only [reprBody, List.append_assoc] at h
          have htails := (reprSlot_prefix_det hca hcb h).2
          simp at htails
      | cons a2 as2 =>
        cases bs with
        | nil =>
          exfalso
          simp only [reprBody, List.append_assoc] at h
          have htails := (reprSlot_prefix_det hca hcb h).2
          simp at htails
        | cons b2 bs2 =>
          simp only [reprBody, List.append_assoc] at h
          obtain ⟨hab, htails⟩ := reprSlot_prefix_det hca hcb h
          have htl : reprBody (a2 :: as2) ++ [']'] = reprBody (b2 :: bs2) ++ [']'] := by
            simpa using htails
          rw [hab, ih (b2 :: bs2) hcas hcbs htl]

theorem pyStrOutages_inj {l1 l2 : List Slot} (h1 : cleanSlots l1 = true)
    (h2 : cleanSlots l2 = true) (h : pyStrOutages l1 = pyStrOutages l2) : l1 = l2 := by
  apply reprBody_bracket_inj l1 l2 h1 h2
  have ht := congrArg List.tail h
  simpa [pyStrOutages] using ht

/-- C4: the day fingerprint is a function of the ordered outage list alone —
two DaySchedules have equal fingerprints exactly when their outage lists are
equal, whatever their titles, dates and group keys; in particular changing any
slot's start, end or kind changes the fingerprint, and changing only title or
group_key does not.  The slot fields are assumed clean (printable ASCII
without quote or backslash), which covers every value the extractors produce
(`HH:MM` labels, `"outage"`, `"switching"`). -/
theorem c4_fingerprint_outages_only (t1 d1 g1 t2 d2 g2 : String) (o1 o2 : List Slot)
    (hc1 : cleanSlots o1 = true) (hc2 : cleanSlots o2 = true) :
    get_day_hash (some ⟨t1, d1, g1, o1⟩) = get_day_hash (some ⟨t2, d2, g2, o2⟩) ↔ o1 = o2 := by
  constructor
  · intro h
    exact pyStrOutages_inj hc1 hc2 (hexDigest_inj h)
  · intro h
    subst h
    rfl

/-- Witness for C4: same outage list under different title and group_key gives
the same fingerprint, and dropping a slot changes it. -/
theorem c4_fingerprint_outages_only_witness :
    get_day_hash (some ⟨"Сьогодні: 2026-01-19", "2026-01-19", "1.1",
        [⟨"01:00", "02:00", "outage"⟩]⟩) =
      get_day_hash (some ⟨"Графік на 2026-01-19", "2026-01-19", "3.2",
        [⟨"01:00", "02:00", "outage"⟩]⟩) ∧
    get_day_hash (some ⟨"x", "2026-01-19", "1.1", [⟨"01:00", "02:00", "outage"⟩]⟩) ≠
      get_day_hash (some ⟨"x", "2026-01-19", "1.1", [⟨"01:00", "02:30", "outage"⟩]⟩) := by
  constructor
  · exact (c4_fingerprint_outages_only "Сьогодні: 2026-01-19" "2026-01-19" "1.1"
      "Графік на 2026-01-19" "2026-01-19" "3.2" _ _ (by decide) (by decide)).mpr rfl
  · intro h
    have := (c4_fingerprint_outages_only "x" "2026-01-19" "1.1" "x" "2026-01-19" "1.1"
      _ _ (by decide) (by decide)).mp h
    simp at this

/-! ## C6: extractor output invariants — sorting infrastructure -/

theorem mem_insBy (le : String → String → Bool) (x a : String) :
    ∀ l : List String, a ∈ insBy le x l ↔ a = x ∨ a ∈ l := by
  intro l
  induction l with
  | nil => simp [insBy]
  | cons y ys ih =>
    simp only [insBy]
    by_cases hxy : le x y = true
    · simp [hxy]
    · simp only [if_neg hxy, List.mem_cons, ih]
      tauto

theorem mem_sortBy (le : String → String → Bool) (a : String) :
    ∀ l : List String, a ∈ sortBy le l ↔ a ∈ l := by
  intro l
  induction l with
  | nil => simp [sortBy]
  | cons y ys ih =>
    simp only [sortBy, List.foldr_cons] at ih ⊢
    rw [mem_insBy, ih, List.mem_cons]

theorem nodup_insBy (le : String → String → Bool) (x : String) :
    ∀ l : List String, x ∉ l → l.Nodup → (insBy le x l).Nodup := by
  intro l
  induction l with
  | nil => intro _ _; simp [insBy]
  | cons y ys ih =>
    intro hx hnd
    have hxy : x ≠ y := fun h => hx (h ▸ List.mem_cons_self y ys)
    have hxys : x ∉ ys := fun h => hx (List.mem_cons_of_mem y h)
    rw [List.nodup_cons] at hnd
    simp only [insBy]
    by_cases hc : le x y = true
    · rw [if_pos hc, List.nodup_cons, List.nodup_cons]
      exact ⟨by simp [hxy, hnd.1, hxys], hnd⟩
    · rw [if_neg hc, List.nodup_cons]
      constructor
      · rw [mem_insBy]
        rintro (h | h)
        · exact hxy h.symm
        · exact hnd.1 h
      · exact ih hxys hnd.2

theorem nodup_sortBy (le : String → String → Bool) :
    ∀ l : List String, l.Nodup → (sortBy le l).Nodup := by
  intro l
  induction l with
  | nil => intro _; simp [sortBy]
  | cons y ys ih =>
    intro hnd
    rw [List.nodup_cons] at hnd
    simp only [sortBy, List.foldr_cons]
    refine nodup_insBy le y _ ?_ (ih hnd.2)
    intro hmem
    exact hnd.1 ((mem_sortBy le y ys).mp hmem)

theorem pairwise_insBy (le : String → String → Bool)
    (htot : ∀ a b, le a b = true ∨ le b a = true)
    (htr : ∀ a b c, le a b = true → le b c = true → le a c = true)
    (x : String) : ∀ l : List String,
    l.Pairwise (fun a b => le a b = true) →
    (insBy le x l).Pairwise (fun a b => le a b = true) := by
  intro l
  induction l with
  | nil => intro _; simp [insBy]
  | cons y ys ih =>
    intro hp
    rw [List.pairwise_cons] at hp
    simp only [insBy]
    by_cases hc : le x y = true
    · rw [if_pos hc, List.pairwise_cons]
      constructor
      · intro z hz
        rcases List.mem_cons.mp hz with rfl | hz
        · exact hc
        · exact htr x y z hc (hp.1 z hz)
      · rw [List.pairwise_cons]
        exact hp
    · rw [if_neg hc, List.pairwise_cons]
      constructor
      · intro z hz
        rcases (mem_insBy le x z ys).mp hz with rfl | hz
        · rcases htot z y with h | h
          · exact absurd h hc
          · exact h
        · exact hp.1 z hz
      · exact ih hp.2

theorem pairwise_sortBy (le : String → String → Bool)
    (htot : ∀ a b, le a b = true ∨ le b a = true)
    (htr : ∀ a b c, le a b = true → le b c = true → le a c = true) :
    ∀ l : List String, (sortBy le l).Pairwise (fun a b => le a b = true) := by
  intro l
  induction l with
  | nil => simp [sortBy]
  | cons y ys ih =>
    simp only [sortBy, List.foldr_cons]
    exact pairwise_insBy le htot htr y _ ih

theorem pairwise_pyLt_sortBy {l : List String} (hnd : l.Nodup) :
    (sortBy pyLe l).Pairwise (fun a b => pyLt a b = true) := by
  have hle := pairwise_sortBy pyLe pyLe_total (fun a b c => pyLe_trans) l
  have hnd' : (sortBy pyLe l).Nodup := nodup_sortBy pyLe l hnd
  have hcomb := List.Pairwise.and hle hnd'
  exact hcomb.imp (fun h => pyLt_of_le_of_ne h.1 h.2)

/-- A decimal digit character. -/
def isDig (c : Char) : Bool := 48 ≤ c.toNat && c.toNat ≤ 57

/-- Numeric value of a digit character. -/
def digVal (c : Char) : Nat := c.toNat - 48

/-- The claim's "HH:MM time label": five characters `h₁h₂:m₁m₂`, zero-padded,
hour at most 23 and minute at most 59 — the label shape both feeds publish. -/
def validHHMM (s : String) : Bool :=
  match s.data with
  | [h1, h2, c, m1, m2] =>
    c == ':' && isDig h1 && isDig h2 && isDig m1 && isDig m2 &&
    decide (digVal h1 * 10 + digVal h2 ≤ 23) && decide (digVal m1 * 10 + digVal m2 ≤ 59)
  | _ => false

theorem validHHMM_struct {s : String} (h : validHHMM s = true) :
    ∃ h1 h2 m1 m2, s.data = [h1, h2, ':', m1, m2] ∧ isDig h1 = true ∧ isDig h2 = true ∧
      isDig m1 = true ∧ isDig m2 = true ∧ digVal h1 * 10 + digVal h2 ≤ 23 ∧
      digVal m1 * 10 + digVal m2 ≤ 59 := by
  unfold validHHMM at h
  rcases hd : s.data with _ | ⟨a, _ | ⟨b, _ | ⟨c, _ | ⟨d, _ | ⟨e, _ | ⟨f, rest⟩⟩⟩⟩⟩⟩
  · rw [hd] at h; simp at h
  · rw [hd] at h; simp at h
  · rw [hd] at h; simp at h
  · rw [hd] at h; simp at h
  · rw [hd] at h; simp at h
  · rw [hd] at h
    simp only [Bool.and_eq_true, beq_iff_eq, decide_eq_true_eq] at h
    obtain ⟨⟨⟨⟨⟨⟨hc, hA⟩, hB⟩, hD⟩, hE⟩, hh⟩, hm⟩ := h
    subst hc
    exact ⟨a, b, d, e, rfl, hA, hB, hD, hE, hh, hm⟩
  · rw [hd] at h; simp at h

theorem isDig_bounds {c : Char} (h : isDig c = true) :
    48 ≤ c.toNat ∧ c.toNat ≤ 57 := by
  simpa [isDig, Bool.and_eq_true, decide_eq_true_eq] using h

theorem digit_ne_colon {c : Char} (h : isDig c = true) : (c == ':') = false := by
  refine beq_eq_false_iff_ne.mpr (fun hc => ?_)
  have hb := (isDig_bounds h).2
  rw [hc] at hb
  simp at hb

theorem splitAllC_pair {a b d e : Char}
    (ha : isDig a = true) (hb : isDig b = true) (hd : isDig d = true) (he : isDig e = true) :
    splitAllC ':' [a, b, ':', d, e] = [[a, b], [d, e]] := by
  simp [splitAllC, digit_ne_colon ha, digit_ne_colon hb, digit_ne_colon hd, digit_ne_colon he]

theorem toMinutes_valid {s : String} (h : validHHMM s = true) :
    ∃ h1 h2 m1 m2, s.data = [h1, h2, ':', m1, m2] ∧
      toMinutes s = (digVal h1 * 10 + digVal h2) * 60 + (digVal m1 * 10 + digVal m2) ∧
      digVal h1 * 10 + digVal h2 ≤ 23 ∧ digVal m1 * 10 + digVal m2 ≤ 59 ∧
      isDig h1 = true ∧ isDig h2 = true ∧ isDig m1 = true ∧ isDig m2 = true := by
  obtain ⟨h1, h2, m1, m2, hd, hA, hB, hD, hE, hh, hm⟩ := validHHMM_struct h
  refine ⟨h1, h2, m1, m2, hd, ?_, hh, hm, hA, hB, hD, hE⟩
  unfold toMinutes
  rw [hd, splitAllC_pair hA hB hD hE]
  simp only [pyIntOfDigits, List.foldl_cons, List.foldl_nil, digVal]
  omega

theorem pyLt_of_minutes_lt {a b : String} (ha : validHHMM a = true) (hb : validHHMM b = true)
    (h : toMinutes a < toMinutes b) : pyLt a b = true := by
  obtain ⟨a1, a2, a3, a4, hda, hma, hha, hmma, hA1, hA2, hA3, hA4⟩ := toMinutes_valid ha
  obtain ⟨b1, b2, b3, b4, hdb, hmb, hhb, hmmb, hB1, hB2, hB3, hB4⟩ := toMinutes_valid hb
  rw [hma, hmb] at h
  unfold pyLt
  rw [hda, hdb]
  simp only [digVal] at h hha hmma hhb hmmb
  obtain ⟨hA1l, hA1u⟩ := isDig_bounds hA1
  obtain ⟨hA2l, hA2u⟩ := isDig_bounds hA2
  obtain ⟨hA3l, hA3u⟩ := isDig_bounds hA3
  obtain ⟨hA4l, hA4u⟩ := isDig_bounds hA4
  obtain ⟨hB1l, hB1u⟩ := isDig_bounds hB1
  obtain ⟨hB2l, hB2u⟩ := isDig_bounds hB2
  obtain ⟨hB3l, hB3u⟩ := isDig_bounds hB3
  obtain ⟨hB4l, hB4u⟩ := isDig_bounds hB4
  by_cases h1 : a1.toNat < b1.toNat
  · simp [ltChars, chLt, h1]
  · have e1 : a1 = b1 := charToNat_inj (by omega)
    subst e1
    by_cases h2 : a2.toNat < b2.toNat
    · simp [ltChars, chLt, h2]
    · have e2 : a2 = b2 := charToNat_inj (by omega)
      subst e2
      by_cases h3 : a3.toNat < b3.toNat
      · simp [ltChars, chLt, h3]
      · have e3 : a3 = b3 := charToNat_inj (by omega)
        subst e3
        have h4 : a4.toNat < b4.toNat := by omega
        simp [ltChars, chLt, h4]

theorem valid_minutes_inj {a b : String} (ha : validHHMM a = true) (hb : validHHMM b = true)
    (h : toMinutes a = toMinutes b) : a = b := by
  obtain ⟨a1, a2, a3, a4, hda, hma, hha, hmma, hA1, hA2, hA3, hA4⟩ := toMinutes_valid ha
  obtain ⟨b1, b2, b3, b4, hdb, hmb, hhb, hmmb, hB1, hB2, hB3, hB4⟩ := toMinutes_valid hb
  rw [hma, hmb] at h
  simp only [digVal] at h hha hmma hhb hmmb
  obtain ⟨hA1l, hA1u⟩ := isDig_bounds hA1
  obtain ⟨hA2l, hA2u⟩ := isDig_bounds hA2
  obtain ⟨hA3l, hA3u⟩ := isDig_bounds hA3
  obtain ⟨hA4l, hA4u⟩ := isDig_bounds hA4
  obtain ⟨hB1l, hB1u⟩ := isDig_bounds hB1
  obtain ⟨hB2l, hB2u⟩ := isDig_bounds hB2
  obtain ⟨hB3l, hB3u⟩ := isDig_bounds hB3
  obtain ⟨hB4l, hB4u⟩ := isDig_bounds hB4
  have e1 : a1 = b1 := charToNat_inj (by omega)
  have e2 : a2 = b2 := charToNat_inj (by omega)
  have e3 : a3 = b3 := charToNat_inj (by omega)
  have e4 : a4 = b4 := charToNat_inj (by omega)
  apply string_data_inj
  rw [hda, hdb, e1, e2, e3, e4]

theorem valid_lt_e24 {s : String} (h : validHHMM s = true) : pyLt s "24:00" = true := by
  obtain ⟨h1, h2, m1, m2, hd, _, hh, _, hD1, hD2, _, _⟩ := toMinutes_valid h
  unfold pyLt
  rw [hd, show ("24:00").data = ['2', '4', ':', '0', '0'] from rfl]
  simp only [digVal] at hh
  obtain ⟨hD1l, hD1u⟩ := isDig_bounds hD1
  obtain ⟨hD2l, hD2u⟩ := isDig_bounds hD2
  have h2v : ('2').toNat = 50 := rfl
  by_cases hc1 : h1.toNat < 50
  · simp [ltChars, chLt]
    exact Or.inl (by omega)
  · have e1 : h1 = '2' := charToNat_inj (by omega)
    subst e1
    simp [ltChars, chLt]
    exact Or.inl (by omega)

theorem minLe_total (a b : String) : minLe a b = true ∨ minLe b a = true := by
  simp only [minLe, decide_eq_true_eq]
  omega

theorem minLe_trans {a b c : String} (h1 : minLe a b = true) (h2 : minLe b c = true) :
    minLe a c = true := by
  simp only [minLe, decide_eq_true_eq] at h1 h2 ⊢
  omega

theorem pairwise_pyLt_sortMin {l : List String} (hnd : l.Nodup)
    (hv : ∀ k ∈ l, validHHMM k = true) :
    (sortBy minLe l).Pairwise (fun a b => pyLt a b = true) := by
  have hle := pairwise_sortBy minLe minLe_total (fun a b c => minLe_trans) l
  have hnd' := nodup_sortBy minLe l hnd
  have hcomb := List.Pairwise.and hle hnd'
  refine hcomb.imp_of_mem ?_
  intro a b hma hmb hab
  have hva := hv a ((mem_sortBy minLe a l).mp hma)
  have hvb := hv b ((mem_sortBy minLe b l).mp hmb)
  have hlt : toMinutes a < toMinutes b := by
    have hle' : toMinutes a ≤ toMinutes b := by
      simpa [minLe] using hab.1
    rcases lt_or_eq_of_le hle' with hx | hx
    · exact hx
    · exact absurd (valid_minutes_inj hva hvb hx) hab.2
  exact pyLt_of_minutes_lt hva hvb hlt

/-- The claim's slot-list invariant, threaded with an optional lower bound:
every slot has `start < end` in the lexical `HH:MM` order (with "24:00" as the
sentinel end), each slot starts no earlier than the previous slot's end (so
the list is sorted and non-overlapping), and the first slot starts no earlier
than the bound. -/
def chainLB : Option String → List Slot → Bool
  | _, [] => true
  | lb?, s :: r =>
    (match lb? with
     | none => true
     | some lb => pyLe lb s.start) && pyLt s.start s.stop && chainLB (some s.stop) r

/-- Sorted, non-overlapping, `start < end` everywhere. -/
def slotsOrdered (l : List Slot) : Bool := chainLB none l

/-- Only the outage and switching kinds are retained. -/
def slotKindOK (s : Slot) : Bool := s.kind == "outage" || s.kind == "switching"

theorem tern_go_append (f : String → String) : ∀ (keys : List String) (ps st : String)
    (acc : List Slot), tern_go f keys ps st acc = acc ++ tern_go f keys ps st [] := by
  intro keys
  induction keys with
  | nil =>
    intro ps st acc
    simp only [tern_go]
    by_cases hcl : (ps == "outage" || ps == "switching") = true
    · rw [if_pos hcl, if_pos hcl]
      simp
    · rw [if_neg hcl, if_neg hcl]
      simp
  | cons t rest ih =>
    intro ps st acc
    simp only [tern_go]
    by_cases hne : (f t != ps) = true
    · rw [if_pos hne, if_pos hne]
      by_cases hcl : (ps == "outage" || ps == "switching") = true
      · rw [if_pos hcl, if_pos hcl, ih (f t) t (acc ++ [Slot.mk st t ps]),
          ih (f t) t ([] ++ [Slot.mk st t ps])]
        simp
      · rw [if_neg hcl, if_neg hcl]
        exact ih (f t) t acc
    · rw [if_neg hne, if_neg hne]
      exact ih ps st acc

theorem tern_go_chain (f : String → String) : ∀ (keys : List String) (ps st : String)
    (lb? : Option String),
    keys.Pairwise (fun a b => pyLt a b = true) →
    (∀ k ∈ keys, pyLt k "24:00" = true) →
    (∀ lb, lb? = some lb → pyLe lb st = true) →
    pyLt st "24:00" = true →
    (∀ k ∈ keys, pyLt st k = true) →
    chainLB lb? (tern_go f keys ps st []) = true := by
  intro keys
  induction keys with
  | nil =>
    intro ps st lb? _ _ hlb h24 _
    simp only [tern_go]
    by_cases hcl : (ps == "outage" || ps == "switching") = true
    · rw [if_pos hcl]
      simp only [chainLB, Bool.and_eq_true]
      refine ⟨⟨?_, h24⟩, trivial⟩
      cases lb? with
      | none => rfl
      | some lb => exact hlb lb rfl
    · rw [if_neg hcl]
      rfl
  | cons t rest ih =>
    intro ps st lb? hpw h24 hlb hst24 hstk
    rw [List.pairwise_cons] at hpw
    have ht24 : pyLt t "24:00" = true := h24 t (List.mem_cons_self t rest)
    have hstt : pyLt st t = true := hstk t (List.mem_cons_self t rest)
    simp only [tern_go]
    by_cases hne : (f t != ps) = true
    · rw [if_pos hne]
      by_cases hcl : (ps == "outage" || ps == "switching") = true
      · rw [if_pos hcl, List.nil_append, tern_go_append f rest (f t) t [⟨st, t, ps⟩]]
        simp only [List.singleton_append, chainLB, Bool.and_eq_true]
        refine ⟨⟨?_, hstt⟩, ?_⟩
        · cases lb? with
          | none => rfl
          | some lb => exact hlb lb rfl
        · exact ih (f t) t (some t) hpw.2 (fun k hk => h24 k (List.mem_cons_of_mem t hk))
            (fun lb hlb' => by cases hlb'; exact pyLe_refl t) ht24
            (fun k hk => hpw.1 k hk)
      · rw [if_neg hcl]
        exact ih (f t) t lb? hpw.2 (fun k hk => h24 k (List.mem_cons_of_mem t hk))
          (fun lb hlb' => pyLe_trans (hlb lb hlb') (pyLe_of_lt hstt))
          ht24 (fun k hk => hpw.1 k hk)
    · rw [if_neg hne]
      exact ih ps st lb? hpw.2 (fun k hk => h24 k (List.mem_cons_of_mem t hk)) hlb hst24
        (fun k hk => pyLt_trans hstt (hpw.1 k hk))

theorem tern_go_first (f : String → String) (k0 : String) (ks : List String)
    (ps st : String) (acc : List Slot) (hps : f k0 = ps) :
    tern_go f (k0 :: ks) ps st acc = tern_go f ks ps st acc := by
  simp [tern_go, hps]

theorem tern_go_kinds (f : String → String) : ∀ (keys : List String) (ps st : String)
    (acc : List Slot), acc.all slotKindOK = true →
    (tern_go f keys ps st acc).all slotKindOK = true := by
  intro keys
  induction keys with
  | nil =>
    intro ps st acc hacc
    simp only [tern_go]
    by_cases hcl : (ps == "outage" || ps == "switching") = true
    · rw [if_pos hcl]
      rw [List.all_append, hacc]
      simpa [slotKindOK] using hcl
    · rw [if_neg hcl]
      exact hacc
  | cons t rest ih =>
    intro ps st acc hacc
    simp only [tern_go]
    by_cases hne : (f t != ps) = true
    · rw [if_pos hne]
      by_cases hcl : (ps == "outage" || ps == "switching") = true
      · rw [if_pos hcl]
        refine ih (f t) t _ ?_
        rw [List.all_append, hacc]
        simpa [slotKindOK] using hcl
      · rw [if_neg hcl]
        exact ih (f t) t acc hacc
    · rw [if_neg hne]
      exact ih ps st acc hacc

theorem tern_slots_invariant (times : List (String × Option Int))
    (hv : ∀ k ∈ times.map Prod.fst, validHHMM k = true)
    (hnd : (times.map Prod.fst).Nodup) :
    slotsOrdered (tern_slots_from_times times) = true ∧
    (tern_slots_from_times times).all slotKindOK = true := by
  unfold tern_slots_from_times
  rcases hs : sortBy pyLe (times.map Prod.fst) with _ | ⟨k0, ks⟩
  · exact ⟨rfl, rfl⟩
  · have hpw : (k0 :: ks).Pairwise (fun a b => pyLt a b = true) := by
      rw [← hs]
      exact pairwise_pyLt_sortBy hnd
    have hmem : ∀ k ∈ k0 :: ks, validHHMM k = true := by
      intro k hk
      refine hv k ((mem_sortBy pyLe k _).mp ?_)
      rw [hs]
      exact hk
    rw [List.pairwise_cons] at hpw
    show slotsOrdered (tern_go (tern_state_of times) (k0 :: ks) (tern_state_of times k0) k0 []) = true ∧
      (tern_go (tern_state_of times) (k0 :: ks) (tern_state_of times k0) k0 []).all slotKindOK = true
    rw [tern_go_first _ _ _ _ _ _ rfl]
    constructor
    · exact tern_go_chain (tern_state_of times) ks (tern_state_of times k0) k0 none hpw.2
        (fun k hk => valid_lt_e24 (hmem k (List.mem_cons_of_mem k0 hk)))
        (fun lb hlb => by cases hlb)
        (valid_lt_e24 (hmem k0 (List.mem_cons_self k0 ks)))
        (fun k hk => hpw.1 k hk)
    · exact tern_go_kinds (tern_state_of times) ks (tern_state_of times k0) k0 [] rfl

theorem sv_go_append (v : String → Int) : ∀ (keys : List String) (ps : Option Int)
    (st : String) (acc : List Slot), sv_go v keys ps st acc = acc ++ sv_go v keys ps st [] := by
  intro keys
  induction keys with
  | nil =>
    intro ps st acc
    simp only [sv_go]
    by_cases hps : (ps == some 2) = true
    · rw [if_pos hps, if_pos hps]
      simp
    · rw [if_neg hps, if_neg hps]
      simp
  | cons t rest ih =>
    intro ps st acc
    simp only [sv_go]
    by_cases hcl : (ps == some 2 && v t != 2) = true
    · rw [if_pos hcl, if_pos hcl, ih _ _ (acc ++ [Slot.mk st t "outage"]),
        ih _ _ ([] ++ [Slot.mk st t "outage"])]
      simp
    · rw [if_neg hcl, if_neg hcl]
      exact ih _ _ acc

theorem sv_go_chain (v : String → Int) : ∀ (keys : List String) (ps : Option Int)
    (st : String) (lb? : Option String),
    keys.Pairwise (fun a b => pyLt a b = true) →
    (∀ k ∈ keys, pyLt k "24:00" = true) →
    (ps = some 2 → (∀ lb, lb? = some lb → pyLe lb st = true) ∧ pyLt st "24:00" = true ∧
      (∀ k ∈ keys, pyLt st k = true)) →
    (ps ≠ some 2 → ∀ k ∈ keys, ∀ lb, lb? = some lb → pyLe lb k = true) →
    chainLB lb? (sv_go v keys ps st []) = true := by
  intro keys
  induction keys with
  | nil =>
    intro ps st lb? _ _ h2 _
    simp only [sv_go]
    by_cases hps : (ps == some 2) = true
    · rw [if_pos hps]
      obtain ⟨hlb, h24, _⟩ := h2 (by simpa using hps)
      simp only [chainLB, Bool.and_eq_true]
      refine ⟨⟨?_, h24⟩, trivial⟩
      cases lb? with
      | none => rfl
      | some lb => exact hlb lb rfl
    · rw [if_neg hps]
      rfl
  | cons t rest ih =>
    intro ps st lb? hpw h24 h2 hn2
    rw [List.pairwise_cons] at hpw
    have ht24 : pyLt t "24:00" = true := h24 t (List.mem_cons_self t rest)
    have hrest24 : ∀ k ∈ rest, pyLt k "24:00" = true :=
      fun k hk => h24 k (List.mem_cons_of_mem t hk)
    simp only [sv_go]
    by_cases hps : (ps == some 2) = true
    · have hps' : ps = some 2 := by simpa using hps
      obtain ⟨hlb, hst24, hstk⟩ := h2 hps'
      have hstt : pyLt st t = true := hstk t (List.mem_cons_self t rest)
      by_cases hv2 : (v t == 2) = true
      · have hv2' : v t = 2 := by simpa using hv2
        have c1 : (v t == 2 && ps != some 2) = false := by simp [hps']
        have c2 : (ps == some 2 && v t != 2) = false := by simp [hv2']
        simp only [c1, c2, Bool.false_eq_true, if_false]
        refine ih (some (v t)) st lb? hpw.2 hrest24 ?_ ?_
        · intro _
          exact ⟨hlb, hst24, fun k hk => pyLt_trans hstt (hpw.1 k hk)⟩
        · intro hcontra
          rw [hv2'] at hcontra
          exact absurd rfl hcontra
      · have c1 : (v t == 2 && ps != some 2) = false := by simp [hps']
        have c2 : (ps == some 2 && v t != 2) = true := by
          simp only [hps', beq_self_eq_true, Bool.true_and, bne_iff_ne, ne_eq]
          simpa using hv2
        simp only [c1, c2, Bool.false_eq_true, if_false, if_true, List.nil_append]
        rw [sv_go_append v rest (some (v t)) st [Slot.mk st t "outage"]]
        simp only [List.singleton_append, chainLB, Bool.and_eq_true]
        refine ⟨⟨?_, hstt⟩, ?_⟩
        · cases lb? with
          | none => rfl
          | some lb => exact hlb lb rfl
        · refine ih (some (v t)) st (some t) hpw.2 hrest24 ?_ ?_
          · intro hcontra
            have hvv : v t = 2 := by simpa using hcontra
            rw [hvv] at hv2
            simp at hv2
          · intro _ k hk lb hlb'
            cases hlb'
            exact pyLe_of_lt (hpw.1 k hk)
    · have hps' : ps ≠ some 2 := by simpa using hps
      have hlbk := hn2 hps'
      have hpsF : (ps == some 2) = false := by simpa using hps
      by_cases hv2 : (v t == 2) = true
      · have c1 : (v t == 2 && ps != some 2) = true := by
          simp only [hv2, Bool.true_and, bne_iff_ne, ne_eq]
          simpa using hps'
        have c2 : (ps == some 2 && v t != 2) = false := by simp [hpsF]
        simp only [c1, c2, Bool.false_eq_true, if_false, if_true]
        refine ih (some (v t)) t lb? hpw.2 hrest24 ?_ ?_
        · intro _
          exact ⟨fun lb hlb' => hlbk t (List.mem_cons_self t rest) lb hlb', ht24,
            fun k hk => hpw.1 k hk⟩
        · intro hcontra
          have hv2' : v t = 2 := by simpa using hv2
          rw [hv2'] at hcontra
          exact absurd rfl hcontra
      · have hv2F : (v t == 2) = false := by simpa using hv2
        have c1 : (v t == 2 && ps != some 2) = false := by simp [hv2F]
        have c2 : (ps == some 2 && v t != 2) = false := by simp [hpsF]
        simp only [c1, c2, Bool.false_eq_true, if_false]
        refine ih (some (v t)) st lb? hpw.2 hrest24 ?_ ?_
        · intro hcontra
          have hvv : v t = 2 := by simpa using hcontra
          rw [hvv] at hv2F
          simp at hv2F
        · intro _ k hk lb hlb'
          exact hlbk k (List.mem_cons_of_mem t hk) lb hlb'

theorem sv_go_kinds (v : String → Int) : ∀ (keys : List String) (ps : Option Int)
    (st : String) (acc : List Slot),
    acc.all (fun s => s.kind == "outage") = true →
    (sv_go v keys ps st acc).all (fun s => s.kind == "outage") = true := by
  intro keys
  induction keys with
  | nil =>
    intro ps st acc hacc
    simp only [sv_go]
    by_cases hps : (ps == some 2) = true
    · rw [if_pos hps, List.all_append, hacc]
      rfl
    · rw [if_neg hps]
      exact hacc
  | cons t rest ih =>
    intro ps st acc hacc
    simp only [sv_go]
    by_cases hcl : (ps == some 2 && v t != 2) = true
    · rw [if_pos hcl]
      refine ih _ _ _ ?_
      rw [List.all_append, hacc]
      rfl
    · rw [if_neg hcl]
      exact ih _ _ acc hacc

theorem sv_slots_invariant (sl : List (String × Int))
    (hv : ∀ k ∈ sl.map Prod.fst, validHHMM k = true)
    (hnd : (sl.map Prod.fst).Nodup) :
    slotsOrdered (sv_slots_to_intervals sl) = true ∧
    (sv_slots_to_intervals sl).all (fun s => s.kind == "outage") = true := by
  have hv' : ∀ k ∈ sortBy minLe (sl.map Prod.fst), validHHMM k = true :=
    fun k hk => hv k ((mem_sortBy minLe k _).mp hk)
  constructor
  · exact sv_go_chain (sv_val_of sl) (sortBy minLe (sl.map Prod.fst)) none "" none
      (pairwise_pyLt_sortMin hnd hv)
      (fun k hk => valid_lt_e24 (hv' k hk))
      (fun hcontra => by cases hcontra)
      (fun _ k _ lb hlb => by cases hlb)
  · exact sv_go_kinds (sv_val_of sl) (sortBy minLe (sl.map Prod.fst)) none "" [] rfl

/-- C6: for inputs whose keys are (distinct) `HH:MM` time labels, both
extractors emit slot lists satisfying the claimed invariant: `start < end`
under lexical comparison with "24:00" as sentinel end, slots sorted ascending
and pairwise non-overlapping, and every kind OUTAGE or SWITCHING (ON runs
produce no slot). -/
theorem c6_extractor_invariants (times : List (String × Option Int)) (sl : List (String × Int))
    (h1 : ∀ k ∈ times.map Prod.fst, validHHMM k = true)
    (h2 : (times.map Prod.fst).Nodup)
    (h3 : ∀ k ∈ sl.map Prod.fst, validHHMM k = true)
    (h4 : (sl.map Prod.fst).Nodup) :
    slotsOrdered (tern_slots_from_times times) = true ∧
    (tern_slots_from_times times).all slotKindOK = true ∧
    slotsOrdered (sv_slots_to_intervals sl) = true ∧
    (sv_slots_to_intervals sl).all slotKindOK = true := by
  obtain ⟨ha, hb⟩ := tern_slots_invariant times h1 h2
  obtain ⟨hc, hd⟩ := sv_slots_invariant sl h3 h4
  refine ⟨ha, hb, hc, ?_⟩
  rw [List.all_eq_true] at hd ⊢
  intro s hs
  simp only [slotKindOK, Bool.or_eq_true]
  exact Or.inl (hd s hs)

/-- Witness for C6: a concrete three-sample Ternopil day (on, outage,
switching) and a concrete Svitlo day. -/
theorem c6_extractor_invariants_witness :
    slotsOrdered (tern_slots_from_times
      [("01:00", some 1), ("00:00", some 0), ("02:00", some 10)]) = true ∧
    (tern_slots_from_times
      [("01:00", some 1), ("00:00", some 0), ("02:00", some 10)]).all slotKindOK = true ∧
    slotsOrdered (sv_slots_to_intervals [("00:00", 1), ("01:00", 2), ("02:00", 1)]) = true ∧
    (sv_slots_to_intervals [("00:00", 1), ("01:00", 2), ("02:00", 1)]).all slotKindOK = true := by
  exact c6_extractor_invariants
    [("01:00", some 1), ("00:00", some 0), ("02:00", some 10)]
    [("00:00", 1), ("01:00", 2), ("02:00", 1)]
    (by decide) (by decide) (by decide) (by decide)

/-- C9: every slot the Svitlo extractor emits has kind "outage" — it never
produces a SWITCHING slot — while the Ternopil extractor does emit a
"switching" slot (for raw code 10), so the three-state output alphabet is
realized only by the Ternopil provider. -/
theorem c9_svitlo_outage_only :
    (∀ (sl : List (String × Int)), ∀ s ∈ sv_slots_to_intervals sl, s.kind = "outage") ∧
    (∃ s ∈ tern_slots_from_times [("00:00", some 10)], s.kind = "switching") := by
  constructor
  · intro sl s hs
    have h := sv_go_kinds (sv_val_of sl) (sortBy minLe (sl.map Prod.fst)) none "" [] rfl
    rw [List.all_eq_true] at h
    have hms := h s hs
    simpa using hms
  · exact ⟨⟨"00:00", "24:00", "switching"⟩, by decide, rfl⟩

/-- Witness for C9: the single slot of a concrete Svitlo day has kind
"outage". -/
theorem c9_svitlo_outage_only_witness :
    (Slot.mk "12:00" "13:00" "outage").kind = "outage" := by
  exact c9_svitlo_outage_only.1 [("12:00", 2), ("13:00", 1)]
    (Slot.mk "12:00" "13:00" "outage") (by decide)

/-! ## C8: the final open run closes at the "24:00" sentinel -/

/-- The end label of the last emitted slot. -/
def lastEnd (l : List Slot) : Option String := l.getLast?.map (fun s => s.stop)

theorem getLast?_cons_ne_none {α : Type} (a : α) (l : List α) :
    (a :: l).getLast? ≠ none := by
  induction l generalizing a with
  | nil => simp
  | cons b l ih =>
    rw [List.getLast?_cons_cons]
    exact ih b

theorem tern_go_lastEnd (f : String → String) : ∀ (keys : List String) (ps st : String)
    (acc : List Slot),
    (keys.getLast? = none → (ps == "outage" || ps == "switching") = true) →
    (∀ k, keys.getLast? = some k → (f k == "outage" || f k == "switching") = true) →
    lastEnd (tern_go f keys ps st acc) = some "24:00" := by
  intro keys
  induction keys with
  | nil =>
    intro ps st acc h1 _
    have hcl := h1 rfl
    simp only [tern_go, if_pos hcl, lastEnd]
    rw [List.getLast?_concat]
    rfl
  | cons t rest ih =>
    intro ps st acc h1 h2
    cases rest with
    | nil =>
      have hcl : (f t == "outage" || f t == "switching") = true := h2 t rfl
      simp only [tern_go]
      by_cases hne : (f t != ps) = true
      · rw [if_pos hne]
        exact ih (f t) t _ (fun _ => hcl) (fun k hk => by cases hk)
      · have heq : f t = ps := by
          simpa using hne
        rw [if_neg hne]
        refine ih ps st acc (fun _ => ?_) (fun k hk => by cases hk)
        rw [← heq]
        exact hcl
    | cons t2 rest2 =>
      simp only [tern_go]
      by_cases hne : (f t != ps) = true
      · rw [if_pos hne]
        exact ih (f t) t _
          (fun hnone => absurd hnone (getLast?_cons_ne_none t2 rest2))
          (fun k hk => h2 k (by rw [List.getLast?_cons_cons]; exact hk))
      · rw [if_neg hne]
        exact ih ps st acc
          (fun hnone => absurd hnone (getLast?_cons_ne_none t2 rest2))
          (fun k hk => h2 k (by rw [List.getLast?_cons_cons]; exact hk))

theorem sv_go_lastEnd (v : String → Int) : ∀ (keys : List String) (ps : Option Int)
    (st : String) (acc : List Slot),
    (keys.getLast? = none → (ps == some 2) = true) →
    (∀ k, keys.getLast? = some k → (v k == 2) = true) →
    lastEnd (sv_go v keys ps st acc) = some "24:00" := by
  intro keys
  induction keys with
  | nil =>
    intro ps st acc h1 _
    have hcl := h1 rfl
    simp only [sv_go, if_pos hcl, lastEnd]
    rw [List.getLast?_concat]
    rfl
  | cons t rest ih =>
    intro ps st acc h1 h2
    cases rest with
    | nil =>
      have hcl : (v t == 2) = true := h2 t rfl
      simp only [sv_go]
      refine ih (some (v t)) _ _ (fun _ => ?_) (fun k hk => by cases hk)
      simpa using hcl
    | cons t2 rest2 =>
      simp only [sv_go]
      exact ih (some (v t)) _ _
        (fun hnone => absurd hnone (getLast?_cons_ne_none t2 rest2))
        (fun k hk => h2 k (by rw [List.getLast?_cons_cons]; exact hk))

/-- C8: when the last sorted sample's classified state is OUTAGE or SWITCHING
(no later sample closes the run), the Ternopil extractor's final slot ends at
the sentinel "24:00"; likewise the Svitlo extractor when the last sample's
raw value is 2. -/
theorem c8_final_run_closes_at_24 (times : List (String × Option Int))
    (sl : List (String × Int)) (k j : String)
    (hk : (sortBy pyLe (times.map Prod.fst)).getLast? = some k)
    (hks : tern_state_of times k = "outage" ∨ tern_state_of times k = "switching")
    (hj : (sortBy minLe (sl.map Prod.fst)).getLast? = some j)
    (hjv : sv_val_of sl j = 2) :
    lastEnd (tern_slots_from_times times) = some "24:00" ∧
    lastEnd (sv_slots_to_intervals sl) = some "24:00" := by
  constructor
  · unfold tern_slots_from_times
    rcases hs : sortBy pyLe (times.map Prod.fst) with _ | ⟨k0, ks⟩
    · rw [hs] at hk
      cases hk
    · rw [hs] at hk
      show lastEnd (tern_go (tern_state_of times) (k0 :: ks)
        (tern_state_of times k0) k0 []) = some "24:00"
      refine tern_go_lastEnd (tern_state_of times) (k0 :: ks) _ _ []
        (fun hnone => absurd hnone (getLast?_cons_ne_none k0 ks)) ?_
      intro k' hk'
      rw [hk'] at hk
      cases hk
      rcases hks with h | h <;> simp [h]
  · unfold sv_slots_to_intervals
    refine sv_go_lastEnd (sv_val_of sl) _ none "" [] (fun hnone => ?_) ?_
    · rw [hj] at hnone
      cases hnone
    · intro k' hk'
      rw [hj] at hk'
      cases hk'
      simp [hjv]

/-- Witness for C8: a Ternopil day whose single sample is an outage and a
Svitlo day whose single sample is 2 both close at "24:00". -/
theorem c8_final_run_closes_at_24_witness :
    lastEnd (tern_slots_from_times [("23:00", some 1)]) = some "24:00" ∧
    lastEnd (sv_slots_to_intervals [("23:00", 2)]) = some "24:00" := by
  exact c8_final_run_closes_at_24 [("23:00", some 1)] [("23:00", 2)] "23:00" "23:00"
    (by decide) (by decide) (by decide) (by decide)

/-! ## C5: empty outage day versus absent day -/

theorem pyGet_mem {β : Type} : ∀ {l : List (String × β)} {k : String} {v : β},
    pyGet l k = some v → (k, v) ∈ l := by
  intro l
  induction l with
  | nil => intro k v h; cases h
  | cons p rest ih =>
    intro k v h
    obtain ⟨k0, v0⟩ := p
    simp only [pyGet] at h
    by_cases hk : (k0 == k) = true
    · rw [if_pos hk] at h
      cases h
      have hke : k0 = k := by simpa using hk
      subst hke
      exact List.mem_cons_self _ _
    · rw [if_neg hk] at h
      exact List.mem_cons_of_mem _ (ih h)

theorem sv_val_of_ne_2 {ds : List (String × Int)} (h : ∀ p ∈ ds, p.2 ≠ 2) (k : String) :
    sv_val_of ds k ≠ 2 := by
  unfold sv_val_of
  cases hg : pyGet ds k with
  | none => simp
  | some v =>
    simp only [Option.getD_some]
    exact h (k, v) (pyGet_mem hg)

theorem sv_go_no_outage (v : String → Int) : ∀ (keys : List String) (ps : Option Int)
    (st : String) (acc : List Slot), (ps == some 2) = false →
    (∀ k ∈ keys, v k ≠ 2) → sv_go v keys ps st acc = acc := by
  intro keys
  induction keys with
  | nil =>
    intro ps st acc hps _
    simp [sv_go, hps]
  | cons t rest ih =>
    intro ps st acc hps hk
    have hvt : v t ≠ 2 := hk t (List.mem_cons_self t rest)
    have c2 : (ps == some 2 && v t != 2) = false := by simp [hps]
    have hps' : (some (v t) == some 2) = false := by simpa using hvt
    simp only [sv_go, c2, Bool.false_eq_true, if_false]
    exact ih (some (v t)) _ acc hps' (fun k hkm => hk k (List.mem_cons_of_mem t hkm))

theorem sv_no2_empty {ds : List (String × Int)} (h : ∀ p ∈ ds, p.2 ≠ 2) :
    sv_slots_to_intervals ds = [] := by
  unfold sv_slots_to_intervals
  refine sv_go_no_outage _ _ _ _ _ rfl ?_
  intro k _
  exact sv_val_of_ne_2 h k

theorem tern_state_of_on {times : List (String × Option Int)}
    (h : ∀ p ∈ times, tern_get_state p.2 = "on") (k : String) :
    tern_state_of times k = "on" := by
  unfold tern_state_of
  cases hg : pyGet times k with
  | none => rfl
  | some v =>
    simp only [Option.getD_some]
    exact h (k, v) (pyGet_mem hg)

theorem tern_go_no_close (f : String → String) : ∀ (keys : List String) (ps st : String)
    (acc : List Slot), (ps == "outage" || ps == "switching") = false →
    (∀ k ∈ keys, (f k == "outage" || f k == "switching") = false) →
    tern_go f keys ps st acc = acc := by
  intro keys
  induction keys with
  | nil =>
    intro ps st acc hps _
    simp [tern_go, hps]
  | cons t rest ih =>
    intro ps st acc hps hk
    have hft := hk t (List.mem_cons_self t rest)
    simp only [tern_go, hps, Bool.false_eq_true, if_false]
    by_cases hne : (f t != ps) = true
    · rw [if_pos hne]
      exact ih (f t) t acc hft (fun k hkm => hk k (List.mem_cons_of_mem t hkm))
    · rw [if_neg hne]
      exact ih ps st acc hps (fun k hkm => hk k (List.mem_cons_of_mem t hkm))

theorem tern_all_on_empty {times : List (String × Option Int)}
    (h : ∀ p ∈ times, tern_get_state p.2 = "on") :
    tern_slots_from_times times = [] := by
  unfold tern_slots_from_times
  rcases hs : sortBy pyLe (times.map Prod.fst) with _ | ⟨k0, ks⟩
  · rfl
  · show tern_go (tern_state_of times) (k0 :: ks) (tern_state_of times k0) k0 [] = []
    refine tern_go_no_close _ _ _ _ _ ?_ ?_
    · rw [tern_state_of_on h k0]
      rfl
    · intro k _
      rw [tern_state_of_on h k]
      rfl

/-- C5 counterexample: the Ternopil day builder, given a graph member whose
`times` dict exists but holds zero samples, produces a *present* DaySchedule
with an empty outage list — the claim says a day with zero usable samples must
be absent (None), never present-with-empty. -/
theorem c5_counterexample :
    tern_day_from_graph "2026-01-19" "1.1" (some []) =
      some ⟨"Графік на " ++ "2026-01-19", "2026-01-19", "1.1", []⟩ := rfl

/-- C5 as amended: in the Svitlo provider a day with zero usable samples
(no entry, empty dict, or all-zero values) is absent and a nonempty all-ON day
is present with an empty outage list; in the Ternopil provider an all-ON day
is present with an empty outage list and a missing `times` entry is absent —
but a `times` dict with zero samples is still a present DaySchedule with an
empty outage list (the counterexample), because ternopil.py has no emptiness
filter. -/
theorem c5_empty_day_policy (gb : List (String × List (String × Int)))
    (key date title gk : String) (ds : List (String × Int))
    (times : List (String × Option Int)) :
    (pyGet gb date = none → sv_build_day gb key date title = none) ∧
    (pyGet gb date = some [] → sv_build_day gb key date title = none) ∧
    (pyGet gb date = some ds → ds ≠ [] → (∀ p ∈ ds, p.2 = 1) →
      sv_build_day gb key date title = some ⟨title, date, key, []⟩) ∧
    (tern_day_from_graph date gk none = none) ∧
    ((∀ p ∈ times, tern_get_state p.2 = "on") →
      tern_day_from_graph date gk (some times) =
        some ⟨"Графік на " ++ date, date, gk, []⟩) := by
  refine ⟨?_, ?_, ?_, rfl, ?_⟩
  · intro h
    unfold sv_build_day
    rw [h]
  · intro h
    unfold sv_build_day
    rw [h]
    rfl
  · intro hget hne hall
    unfold sv_build_day
    rw [hget]
    have hie : ds.isEmpty = false := by
      cases ds with
      | nil => exact absurd rfl hne
      | cons p rest => rfl
    have hz : ¬ (ds.all (fun p => p.2 == 0) = true) := by
      intro hz
      obtain ⟨p, hp⟩ := List.exists_mem_of_ne_nil ds hne
      have := List.all_eq_true.mp hz p hp
      have h1 := hall p hp
      rw [h1] at this
      cases this
    show (if ds.isEmpty = true then none
      else if (ds.all fun p => p.2 == 0) = true then none
      else some (DaySchedule.mk title date key (sv_slots_to_intervals ds))) =
      some (DaySchedule.mk title date key [])
    rw [hie]
    simp only [Bool.false_eq_true, if_false]
    rw [if_neg hz]
    have hempty : sv_slots_to_intervals ds = [] := by
      refine sv_no2_empty ?_
      intro p hp
      rw [hall p hp]
      decide
    rw [hempty]
  · intro h
    unfold tern_day_from_graph
    show some (DaySchedule.mk ("Графік на " ++ date) date gk (tern_slots_from_times times)) =
      some (DaySchedule.mk ("Графік на " ++ date) date gk [])
    rw [tern_all_on_empty h]

/-- Witness for C5's amended statement at concrete inputs: absent date entry,
empty dict, all-zero day, all-ON day (Svitlo), missing times and all-ON day
(Ternopil). -/
theorem c5_empty_day_policy_witness :
    sv_build_day [("2026-01-20", [("00:00", 1)])] "1.1" "2026-01-19" "t" = none ∧
    sv_build_day [("2026-01-19", [])] "1.1" "2026-01-19" "t" = none ∧
    sv_build_day [("2026-01-19", [("00:00", 1), ("00:30", 1)])] "1.1" "2026-01-19" "t" =
      some ⟨"t", "2026-01-19", "1.1", []⟩ ∧
    tern_day_from_graph "2026-01-19" "1.1" none = none ∧
    tern_day_from_graph "2026-01-19" "1.1" (some [("00:00", some 0)]) =
      some ⟨"Графік на " ++ "2026-01-19", "2026-01-19", "1.1", []⟩ := by
  refine ⟨?_, ?_, ?_, ?_, ?_⟩
  · exact (c5_empty_day_policy [("2026-01-20", [("00:00", 1)])] "1.1" "2026-01-19" "t" "x"
      [] []).1 (by decide)
  · exact (c5_empty_day_policy [("2026-01-19", [])] "1.1" "2026-01-19" "t" "x" [] []).2.1
      (by decide)
  · exact (c5_empty_day_policy [("2026-01-19", [("00:00", 1), ("00:30", 1)])] "1.1"
      "2026-01-19" "t" "x" [("00:00", 1), ("00:30", 1)] []).2.2.1 (by decide) (by decide)
      (by decide)
  · exact (c5_empty_day_policy [] "1.1" "2026-01-19" "t" "1.1" [] []).2.2.2.1
  · exact (c5_empty_day_policy [] "1.1" "2026-01-19" "t" "1.1" [] [("00:00", some 0)]).2.2.2.2
      (by decide)
